import Mathlib

/-!
# The table type of gopher-lua (`table.go`)

A shallow embedding of `LTable` and of its operations, followed by theorems about
them.  Conventions of the embedding:

* a Go slice is a `List`; a Go map is an association list (`List (κ × α)`) whose
  order stands for the order in which the runtime happens to range over the map;
* a Go `int` is an `Int`; the one subtraction that can overflow on an argument
  supplied by the caller (`pos - 1`, `key - 1`) is wrapped to 64 bits;
* an operation that can panic (index out of range) returns an `Option`,
  `none` being the panic;
* `MaxArrayIndex`, a package variable declared outside `table.go`, is a parameter
  `M` of every operation that reads it.
-/

namespace GopherLua

/-! ## Values -/

/-- Modelled from the spec: the numbers of the value model (`LNumber` is a Go
`float64`, declared outside `table.go`).  A number is finite, infinite or
not-a-number; a finite number is carried by its exact rational value, the two
zeros being one value, as they are for `==` and for map keys. -/
inductive Float64 where
  | finite (q : ℚ)
  | inf (negative : Bool)
  | nan
  deriving DecidableEq

namespace Float64

/-- The conversion `float64(i)` of an `int`, taken to be exact.  It is exact in Go
up to `2 ^ 53` in absolute value, hence on every index a slice can have; beyond,
Go rounds to the nearest `float64`, which keeps the sign and the integrality
that `table.go` tests. -/
def ofInt (i : Int) : Float64 := .finite i

/-- Go `==` on `float64`: not-a-number differs from everything, itself included. -/
def eq : Float64 → Float64 → Bool
  | .nan, _ => false
  | _, .nan => false
  | a, b => decide (a = b)

/-- Modelled from the spec: `isInteger`, "an exact integer (no fractional part,
no NaN)"; the helper is declared outside `table.go`. -/
def isInteger : Float64 → Bool
  | .finite q => q.den == 1
  | _ => false

/-- The conversion `int(v)`: truncation toward zero.  `table.go` applies it to
integer-valued numbers only. -/
def toInt : Float64 → Int
  | .finite q => q.num.tdiv q.den
  | _ => 0

end Float64

/-- Modelled from the spec: the closed set of value variants (nil, boolean, number,
string, table reference, callable reference, other reference); the `LValue`
interface and its implementations are declared outside `table.go`.  Reference
kinds are compared by identity, carried here as an address. -/
inductive LValue where
  | LNil
  | LBool (b : Bool)
  | LNumber (n : Float64)
  | LString (s : String)
  | LTableRef (addr : Nat)
  | LFunctionRef (addr : Nat)
  | LOtherRef (addr : Nat)
  deriving DecidableEq

open LValue

/-- Go `==` on two `LValue` interfaces, which is also the equality of map keys:
same variant and equal payload, numbers compared as `float64`. -/
def keyEq : LValue → LValue → Bool
  | .LNumber a, .LNumber b => Float64.eq a b
  | a, b => decide (a = b)

/-- Modelled from the spec: `isArrayKey`, the routing test "a number that is an
exact non-negative integer (no fractional part, no NaN) strictly less than a
fixed maximum array index threshold, and is ≥ 1"; the helper and the threshold
`MaxArrayIndex` (here `M`) are declared outside `table.go`. -/
def isArrayKey (M : Int) (v : Float64) : Bool :=
  v.isInteger && decide (1 ≤ v.toInt) && decide (v.toInt < M)

/-! ## Machine integers -/

/-- The least `int` of a 64-bit platform. -/
def minInt : Int := -9223372036854775808

/-- The greatest `int` of a 64-bit platform. -/
def maxInt : Int := 9223372036854775807

/-- Two's-complement wrap-around of an integer result to 64 bits. -/
def wrapInt (x : Int) : Int := (x + 9223372036854775808) % 18446744073709551616 - 9223372036854775808

/-! ## Go maps and slices -/

/-- The lookup `m[k]` with its `ok` flag. -/
def mapGet {κ α : Type} (eq : κ → κ → Bool) : List (κ × α) → κ → Option α
  | [], _ => none
  | (k', v) :: m, k => if eq k' k then some v else mapGet eq m k

/-- The assignment `m[k] = v`: overwrite the entry of an equal key, else add one. -/
def mapSet {κ α : Type} (eq : κ → κ → Bool) : List (κ × α) → κ → α → List (κ × α)
  | [], k, v => [(k, v)]
  | (k', v') :: m, k, v => if eq k' k then (k', v) :: m else (k', v') :: mapSet eq m k v

/-- The builtin `delete(m, k)`: no entry with an equal key remains. -/
def mapDelete {κ α : Type} (eq : κ → κ → Bool) (m : List (κ × α)) (k : κ) : List (κ × α) :=
  m.filter (fun e => !eq e.1 k)

/-- Equality of Go strings. -/
def strEq (a b : String) : Bool := decide (a = b)

/-- The builtin `copy(a[dst:], a[src:])` on one backing slice (it moves
`min(len(a)-dst, len(a)-src)` elements, as if through a temporary). -/
def copyWithin {α : Type} (a : List α) (dst src : Nat) : List α :=
  let n := min (a.length - dst) (a.length - src)
  a.take dst ++ ((a.drop src).take n ++ a.drop (dst + n))

/-- The loop `for i := 0; i < n; i++ { a = append(a, LNil) }`. -/
def appendNils : Nat → List LValue → List LValue
  | 0, a => a
  | n + 1, a => appendNils n (a ++ [LNil])

/-- The indexing `a[i]` with a machine integer: a panic (`none`) out of range. -/
def indexInt {α : Type} (a : List α) (i : Int) : Option α :=
  if i < 0 then none else a[i.toNat]?

/-! ## The table -/

/-- Modelled from the spec: the table record (the struct `LTable` is declared
outside `table.go`): the array segment, the general-keyed segment `dict`, the
string-keyed segment `strdict`, and the iteration cursor `keys`/`k2i`, which is
`none` when the Go field is `nil`. -/
structure LTable where
  array : List LValue
  dict : List (LValue × LValue)
  strdict : List (String × LValue)
  keys : Option (List LValue)
  k2i : Option (List (LValue × Nat))
  Metatable : LValue
  deriving DecidableEq

/-- The constructor `newLTable`; the capacities only size the allocations. -/
def newLTable (_acap _hcap : Int) : LTable :=
  { array := [], dict := [], strdict := [], keys := none, k2i := none, Metatable := LNil }

namespace LTable

/-- The backward loop of `Len`: `i` runs from `n - 1` down to `0`. -/
def Len.loop (array : List LValue) : Nat → LValue → Nat
  | 0, _ => 0
  | i + 1, prev =>
    let v := array.getD i LNil
    if prev = LNil ∧ v ≠ LNil then i + 1 else Len.loop array i v

/-- The method `Len`. -/
def Len (tb : LTable) : Nat :=
  Len.loop tb.array tb.array.length LNil

/-- The method `Append`. -/
def Append (tb : LTable) (value : LValue) : LTable :=
  { tb with array := tb.array ++ [value] }

/-- The backward loop of `MaxN`. -/
def MaxN.loop (array : List LValue) : Nat → Nat
  | 0 => 0
  | i + 1 => if array.getD i LNil ≠ LNil then i + 1 else MaxN.loop array i

/-- The method `MaxN`. -/
def MaxN (tb : LTable) : Nat :=
  MaxN.loop tb.array tb.array.length

/-- The method `Remove`; `none` is the index-out-of-range panic. -/
def Remove (tb : LTable) (pos : Int) : Option (LValue × LTable) :=
  let i := wrapInt (pos - 1)
  let larray : Int := tb.array.length
  if i ≥ larray then
    some (LNil, tb)
  else if i = larray - 1 ∨ i < 0 then
    match indexInt tb.array (larray - 1) with
    | none => none
    | some oldval => some (oldval, { tb with array := tb.array.take (larray - 1).toNat })
  else
    match indexInt tb.array i with
    | none => none
    | some oldval =>
      let a := copyWithin tb.array i.toNat (i.toNat + 1)
      let a := a.set (larray - 1).toNat LNil
      some (oldval, { tb with array := a.take (larray - 1).toNat })

/-- The method `RawSetString`. -/
def RawSetString (tb : LTable) (key : String) (value : LValue) : LTable :=
  if value = LNil then { tb with strdict := mapDelete strEq tb.strdict key }
  else { tb with strdict := mapSet strEq tb.strdict key value }

/-- The method `RawSetH`. -/
def RawSetH (tb : LTable) (key : LValue) (value : LValue) : LTable :=
  match key with
  | .LString s => RawSetString tb s value
  | _ =>
    if value = LNil then { tb with dict := mapDelete keyEq tb.dict key }
    else { tb with dict := mapSet keyEq tb.dict key value }

/-- The method `RawSet`. -/
def RawSet (M : Int) (tb : LTable) (key : LValue) (value : LValue) : LTable :=
  match key with
  | .LNumber v =>
    if isArrayKey M v then
      let index := (v.toInt - 1).toNat
      let alen := tb.array.length
      if index = alen then { tb with array := tb.array ++ [value] }
      else if index > alen then
        { tb with array := appendNils (index - alen) tb.array ++ [value] }
      else { tb with array := tb.array.set index value }
    else RawSetH tb key value
  | .LString s => RawSetString tb s value
  | _ => RawSetH tb key value

/-- The method `RawSetInt`. -/
def RawSetInt (M : Int) (tb : LTable) (key : Int) (value : LValue) : LTable :=
  if key < 1 ∨ key ≥ M then RawSetH tb (.LNumber (.ofInt key)) value
  else
    let index := (key - 1).toNat
    let alen := tb.array.length
    if index = alen then { tb with array := tb.array ++ [value] }
    else if index > alen then
      { tb with array := appendNils (index - alen) tb.array ++ [value] }
    else { tb with array := tb.array.set index value }

/-- The method `Insert`. -/
def Insert (M : Int) (tb : LTable) (i : Int) (value : LValue) : LTable :=
  if i > tb.array.length then RawSetInt M tb i value
  else if i ≤ 0 then RawSet M tb (.LNumber (.ofInt i)) value
  else
    let i := (i - 1).toNat
    let a := tb.array ++ [LNil]
    let a := copyWithin a (i + 1) i
    { tb with array := a.set i value }

/-- The method `RawGet`. -/
def RawGet (M : Int) (tb : LTable) (key : LValue) : LValue :=
  match key with
  | .LNumber v =>
    if isArrayKey M v then
      let index := (v.toInt - 1).toNat
      if index ≥ tb.array.length then LNil else tb.array.getD index LNil
    else (mapGet keyEq tb.dict key).getD LNil
  | .LString s => (mapGet strEq tb.strdict s).getD LNil
  | _ => (mapGet keyEq tb.dict key).getD LNil

/-- The method `RawGetInt`. -/
def RawGetInt (tb : LTable) (key : Int) : LValue :=
  let index := wrapInt (key - 1)
  if index ≥ tb.array.length ∨ index < 0 then LNil else tb.array.getD index.toNat LNil

/-- The method `RawGetH`. -/
def RawGetH (tb : LTable) (key : LValue) : LValue :=
  match key with
  | .LString s => (mapGet strEq tb.strdict s).getD LNil
  | _ => (mapGet keyEq tb.dict key).getD LNil

/-- The method `RawGetString`. -/
def RawGetString (tb : LTable) (key : String) : LValue :=
  (mapGet strEq tb.strdict key).getD LNil

/-- The first loop of `ForEach`, over the array segment from index `i` on. -/
def ForEach.array {σ : Type} (cb : σ → LValue → LValue → σ) : List LValue → Nat → σ → σ
  | [], _, s => s
  | v :: rest, i, s =>
    ForEach.array cb rest (i + 1) (if v ≠ LNil then cb s (.LNumber (.ofInt (i + 1))) v else s)

/-- The loops of `ForEach` over a map whose keys are turned into values by `f`. -/
def ForEach.entries {σ κ : Type} (cb : σ → LValue → LValue → σ) (f : κ → LValue) :
    List (κ × LValue) → σ → σ
  | [], s => s
  | (k, v) :: rest, s => ForEach.entries cb f rest (if v ≠ LNil then cb s (f k) v else s)

/-- The method `ForEach`; the callback threads a state of its own and does not
touch the table. -/
def ForEach {σ : Type} (tb : LTable) (cb : σ → LValue → LValue → σ) (init : σ) : σ :=
  let s := ForEach.array cb tb.array 0 init
  let s := ForEach.entries cb LValue.LString tb.strdict s
  ForEach.entries cb id tb.dict s

/-- The calls `ForEach` makes, in order: the arguments of each invocation. -/
def ForEach.calls (tb : LTable) : List (LValue × LValue) :=
  ForEach tb (fun acc k v => acc ++ [(k, v)]) []

/-- The two loops of `Next` that fill `keys` and `k2i`, over the keys in the
order the maps are ranged over. -/
def Next.fill : List LValue → Nat → List LValue → List (LValue × Nat) →
    List LValue × List (LValue × Nat)
  | [], _, keys, k2i => (keys, k2i)
  | k :: rest, i, keys, k2i => Next.fill rest (i + 1) (keys.set i k) (mapSet keyEq k2i k i)

/-- The block of `Next` run when `tb.keys == nil`: materialise the cursor. -/
def Next.snapshot (tb : LTable) : LTable :=
  let keys := List.replicate (tb.dict.length + tb.strdict.length) LNil
  let r := Next.fill (tb.dict.map Prod.fst ++ tb.strdict.map (fun e => LValue.LString e.1)) 0 keys []
  { tb with keys := some r.1, k2i := some r.2 }

/-- The test `Next` makes on a snapshot key: its current value, when the key is
still present with a non-nil value. -/
def Next.live (tb : LTable) (key : LValue) : Option LValue :=
  match key with
  | .LString s =>
    match mapGet strEq tb.strdict s with
    | some sv => if sv ≠ LNil then some sv else none
    | none => none
  | _ =>
    match mapGet keyEq tb.dict key with
    | some v => if v ≠ LNil then some v else none
    | none => none

/-- The loop `for ; index < len(tb.array); index++` of `Next`: the index it stops
at and the non-nil value found there, if any. -/
def Next.scan (array : List LValue) : Nat → Nat → Nat × Option LValue
  | 0, index => (index, none)
  | fuel + 1, index =>
    match array[index]? with
    | some v => if v ≠ LNil then (index, some v) else Next.scan array fuel (index + 1)
    | none => (index, none)

/-- The final loop of `Next` over the snapshot from position `i`: `none` is a
panic, `some none` the end of the loop. -/
def Next.hash (tb : LTable) (length : Nat) : Nat → Nat → Option (Option (LValue × LValue))
  | 0, _ => some none
  | fuel + 1, i =>
    if i < length then
      match (tb.keys.getD [])[i]? with
      | none => none
      | some key =>
        match Next.live tb key with
        | some v => some (some (key, v))
        | none => Next.hash tb length fuel (i + 1)
    else some none

/-- The tail of `Next` from `length := len(tb.dict) + len(tb.strdict)` on. -/
def Next.rest (tb : LTable) (key : LValue) : Option ((LValue × LValue) × LTable) :=
  let length := tb.dict.length + tb.strdict.length
  let i := (mapGet keyEq (tb.k2i.getD []) key).getD 0 + 1
  match Next.hash tb length (length - i) i with
  | none => none
  | some (some kv) => some (kv, tb)
  | some none => some ((LNil, LNil), { tb with keys := none, k2i := none })

/-- The head of `Next` (up to the end of the block `if tb.keys == nil`): a nil
key discards the cursor, and a missing cursor is materialised. -/
def Next.cursor (tb : LTable) (key : LValue) : LTable :=
  let tb := if key = LNil then { tb with keys := none, k2i := none } else tb
  if tb.keys.isNone then Next.snapshot tb else tb

/-- The key `Next` goes on with: `LNumber(0)` in place of nil. -/
def Next.key (key : LValue) : LValue :=
  if key = LNil then LValue.LNumber (.ofInt 0) else key

/-- The body of `Next` from the test `key.(LNumber)` on. -/
def Next.body (tb : LTable) (key : LValue) : Option ((LValue × LValue) × LTable) :=
  match key with
  | .LNumber kv =>
    if kv.isInteger ∧ kv.toInt ≥ 0 then
      match Next.scan tb.array (tb.array.length - kv.toInt.toNat) kv.toInt.toNat with
      | (index, some v) => some ((.LNumber (.ofInt (index + 1)), v), tb)
      | (index, none) =>
        if index = tb.array.length then
          if tb.dict.length = 0 ∧ tb.strdict.length = 0 then
            some ((LNil, LNil), { tb with keys := none, k2i := none })
          else
            match (tb.keys.getD [])[0]? with
            | none => none
            | some key =>
              match Next.live tb key with
              | some v => some ((key, v), tb)
              | none => Next.rest tb key
        else Next.rest tb key
    else Next.rest tb key
  | _ => Next.rest tb key

/-- The method `Next`; `none` is the index-out-of-range panic, and the table
returned carries the updated cursor. -/
def Next (tb : LTable) (key : LValue) : Option ((LValue × LValue) × LTable) :=
  Next.body (Next.cursor tb key) (Next.key key)

/-- The traversal protocol: call `Next` with `key`, then with each key it
returns, for at most `n` calls; the pairs returned before `(nil, nil)` (or a
panic) ends it. -/
def Next.iterate : Nat → LTable → LValue → List (LValue × LValue)
  | 0, _, _ => []
  | n + 1, tb, key =>
    match Next tb key with
    | none => []
    | some ((k, v), tb') => if k = LNil then [] else (k, v) :: Next.iterate n tb' k

end LTable

open LTable

/-! ## Notions used by the statements -/

/-- The routing rule as `RawSet` and `RawGet` apply it: the key is sent to the
array segment. Every other key is sent to the string segment (a string) or to
the general segment. -/
def routesToArray (M : Int) : LValue → Bool
  | .LNumber f => isArrayKey M f
  | _ => false

/-- The tables that the operations of `table.go` build from a new table; the
exported field `Metatable` may be assigned freely. -/
inductive Reachable (M : Int) : LTable → Prop
  | new (acap hcap : Int) : Reachable M (newLTable acap hcap)
  | rawSet {tb : LTable} (k v : LValue) : Reachable M tb → Reachable M (RawSet M tb k v)
  | rawSetInt {tb : LTable} (k : Int) (v : LValue) :
      Reachable M tb → Reachable M (RawSetInt M tb k v)
  | rawSetString {tb : LTable} (k : String) (v : LValue) :
      Reachable M tb → Reachable M (RawSetString tb k v)
  | rawSetH {tb : LTable} (k v : LValue) : Reachable M tb → Reachable M (RawSetH tb k v)
  | append {tb : LTable} (v : LValue) : Reachable M tb → Reachable M (Append tb v)
  | insert {tb : LTable} (i : Int) (v : LValue) :
      Reachable M tb → Reachable M (Insert M tb i v)
  | remove {tb tb' : LTable} (pos : Int) (v : LValue) :
      Reachable M tb → Remove tb pos = some (v, tb') → Reachable M tb'
  | next {tb tb' : LTable} (key : LValue) (r : LValue × LValue) :
      Reachable M tb → Next tb key = some (r, tb') → Reachable M tb'
  | setMetatable {tb : LTable} (mt : LValue) :
      Reachable M tb → Reachable M { tb with Metatable := mt }

/-- The entry a string or general key has in its segment, if it has one. -/
def hashEntry (tb : LTable) : LValue → Option LValue
  | .LString s => mapGet strEq tb.strdict s
  | k => mapGet keyEq tb.dict k

/-- The general segment holds no string key. -/
def noStringKey (m : List (LValue × LValue)) : Prop :=
  ∀ e ∈ m, ∀ s : String, e.1 ≠ LValue.LString s

/-- The pairs the first loop of `ForEach` hands to its callback, for the array
segment from index `i` on. -/
def arrayPairs : List LValue → Nat → List (LValue × LValue)
  | [], _ => []
  | v :: rest, i =>
    (if v ≠ LNil then [(LValue.LNumber (.ofInt (i + 1)), v)] else []) ++ arrayPairs rest (i + 1)

/-- The pairs a map loop of `ForEach` hands to its callback. -/
def entryPairs {κ : Type} (f : κ → LValue) : List (κ × LValue) → List (LValue × LValue)
  | [] => []
  | (k, v) :: rest => (if v ≠ LNil then [(f k, v)] else []) ++ entryPairs f rest

/-- The tables built from a new table by set (`RawSet`, `RawSetInt`,
`RawSetString`), `Append`, `Insert` and `Remove`, that is without a direct call
of `RawSetH`; traversals and the exported field `Metatable` do not count. -/
inductive SetReachable (M : Int) : LTable → Prop
  | new (acap hcap : Int) : SetReachable M (newLTable acap hcap)
  | rawSet {tb : LTable} (k v : LValue) : SetReachable M tb → SetReachable M (RawSet M tb k v)
  | rawSetInt {tb : LTable} (k : Int) (v : LValue) :
      SetReachable M tb → SetReachable M (RawSetInt M tb k v)
  | rawSetString {tb : LTable} (k : String) (v : LValue) :
      SetReachable M tb → SetReachable M (RawSetString tb k v)
  | append {tb : LTable} (v : LValue) : SetReachable M tb → SetReachable M (Append tb v)
  | insert {tb : LTable} (i : Int) (v : LValue) :
      SetReachable M tb → SetReachable M (Insert M tb i v)
  | remove {tb tb' : LTable} (pos : Int) (v : LValue) :
      SetReachable M tb → Remove tb pos = some (v, tb') → SetReachable M tb'
  | next {tb tb' : LTable} (key : LValue) (r : LValue × LValue) :
      SetReachable M tb → Next tb key = some (r, tb') → SetReachable M tb'
  | setMetatable {tb : LTable} (mt : LValue) :
      SetReachable M tb → SetReachable M { tb with Metatable := mt }

/-- The key is the position of a slot of the array segment. -/
def heldByArray (tb : LTable) (k : LValue) : Prop :=
  ∃ j : Nat, j < tb.array.length ∧ k = LValue.LNumber (.ofInt ((j : Nat) + 1))

/-- The key is the position of an array slot that holds a non-nil value. -/
def heldNonNilByArray (tb : LTable) (k : LValue) : Prop :=
  ∃ (j : Nat) (v : LValue),
    k = LValue.LNumber (.ofInt ((j : Nat) + 1)) ∧ tb.array[j]? = some v ∧ v ≠ LNil

/-- The key has an entry in the string segment. -/
def heldByStrdict (tb : LTable) (k : LValue) : Prop :=
  ∃ (s : String) (v : LValue), k = LValue.LString s ∧ (s, v) ∈ tb.strdict

/-- The key has an entry in the general segment. -/
def heldByDict (tb : LTable) (k : LValue) : Prop :=
  ∃ v : LValue, (k, v) ∈ tb.dict

/-- No entry of the map holds nil. -/
def noNilValue {κ : Type} (m : List (κ × LValue)) : Prop :=
  ∀ e ∈ m, e.2 ≠ LNil

/-! ## Example tables -/

/-- The table `{a = 1, b = 2, c = 3}`, built by three calls of `RawSet`. -/
def abcTable : LTable :=
  RawSet 67108864
    (RawSet 67108864
      (RawSet 67108864 (newLTable 0 0) (.LString "a") (.LNumber (.ofInt 1)))
      (.LString "b") (.LNumber (.ofInt 2)))
    (.LString "c") (.LNumber (.ofInt 3))

/-- The table `{[0] = true}` with the cursor that a started traversal leaves on it. -/
def zeroKeyCursor : LTable :=
  { array := [], dict := [(.LNumber (.ofInt 0), .LBool true)], strdict := [],
    keys := some [.LNumber (.ofInt 0)], k2i := some [(.LNumber (.ofInt 0), 0)],
    Metatable := LNil }

/-! ## Lemmas on values, maps and slices -/

theorem Float64.eq_self {f : Float64} (h : f ≠ .nan) : Float64.eq f f = true := by
  cases f <;> simp [Float64.eq] at h ⊢

theorem keyEq_self {k : LValue} (h : k ≠ .LNumber .nan) : keyEq k k = true := by
  cases k <;> simp [keyEq]
  rename_i f
  exact Float64.eq_self (fun hf => h (by rw [hf]))

theorem strEq_self (s : String) : strEq s s = true := by simp [strEq]

theorem mapGet_mapSet_self {κ α : Type} (eq : κ → κ → Bool) (m : List (κ × α)) (k : κ) (v : α)
    (h : eq k k = true) : mapGet eq (mapSet eq m k v) k = some v := by
  induction m with
  | nil => simp [mapSet, mapGet, h]
  | cons e m ih =>
    obtain ⟨k', v'⟩ := e
    by_cases hk : eq k' k = true
    · simp [mapSet, mapGet, hk]
    · simp [mapSet, mapGet, hk, ih]

theorem mapGet_mapDelete_self {κ α : Type} (eq : κ → κ → Bool) (m : List (κ × α)) (k : κ) :
    mapGet eq (mapDelete eq m k) k = none := by
  induction m with
  | nil => simp [mapDelete, mapGet]
  | cons e m ih =>
    obtain ⟨k', v'⟩ := e
    by_cases hk : eq k' k = true
    · simpa [mapDelete, List.filter, hk] using ih
    · simp only [mapDelete] at ih ⊢
      simp [List.filter, hk, mapGet, ih]

theorem mapDelete_of_absent {κ α : Type} (eq : κ → κ → Bool) (m : List (κ × α)) (k : κ)
    (h : mapGet eq m k = none) : mapDelete eq m k = m := by
  induction m with
  | nil => simp [mapDelete]
  | cons e m ih =>
    obtain ⟨k', v'⟩ := e
    by_cases hk : eq k' k = true
    · simp [mapGet, hk] at h
    · simp only [mapGet, hk] at h
      simp only [mapDelete] at ih ⊢
      simp [List.filter, hk, ih h]

theorem appendNils_eq (n : Nat) (a : List LValue) :
    appendNils n a = a ++ List.replicate n LNil := by
  induction n generalizing a with
  | zero => simp [appendNils]
  | succ n ih => simp [appendNils, ih, List.replicate_succ]

theorem Float64.isInteger_ofInt (i : Int) : (Float64.ofInt i).isInteger = true := by
  simp [Float64.ofInt, Float64.isInteger]

theorem Float64.toInt_ofInt (i : Int) : (Float64.ofInt i).toInt = i := by
  simp [Float64.ofInt, Float64.toInt]

theorem isArrayKey_ofInt (M i : Int) :
    isArrayKey M (Float64.ofInt i) = (decide (1 ≤ i) && decide (i < M)) := by
  simp [isArrayKey, Float64.isInteger_ofInt, Float64.toInt_ofInt]


/-- The array segment after a store at 0-based `index` (the `switch` shared by
`RawSet` and `RawSetInt`), as a list expression. -/
theorem storeAt_get (a : List LValue) (index : Nat) (v : LValue) :
    (if index = a.length then a ++ [v]
      else if index > a.length then appendNils (index - a.length) a ++ [v]
      else a.set index v)[index]? = some v := by
  split_ifs with h1 h2
  · subst h1; simp
  · rw [appendNils_eq]
    rw [List.getElem?_append_right (by simp; omega)]
    have h0 : index - (a ++ List.replicate (index - a.length) LNil).length = 0 := by
      simp; omega
    rw [h0]; rfl
  · have : index < a.length := by omega
    simp [List.getElem?_set, this]

theorem RawGet_RawSet_arrayKey (M : Int) (tb : LTable) (f : Float64) (v : LValue)
    (hf : isArrayKey M f = true) :
    RawGet M (RawSet M tb (.LNumber f) v) (.LNumber f) = v := by
  have key := storeAt_get tb.array (f.toInt - 1).toNat v
  simp only [RawGet, RawSet, hf, if_true]
  have hlt := (List.getElem?_eq_some_iff.mp key).1
  split_ifs at key hlt ⊢ <;> simp_all [List.getD_eq_getElem?_getD] <;> omega

theorem RawGet_RawSet_self (M : Int) (tb : LTable) (k v : LValue)
    (hk : k ≠ .LNumber .nan) (hv : v ≠ LNil) :
    RawGet M (RawSet M tb k v) k = v := by
  cases k with
  | LNumber f =>
    by_cases hf : isArrayKey M f = true
    · exact RawGet_RawSet_arrayKey M tb f v hf
    · simp [RawGet, RawSet, hf, RawSetH, hv, mapGet_mapSet_self keyEq _ _ _ (keyEq_self hk)]
  | LString s =>
    simp [RawGet, RawSet, RawSetString, hv, mapGet_mapSet_self strEq _ _ _ (strEq_self s)]
  | _ =>
    simp [RawGet, RawSet, RawSetH, hv, mapGet_mapSet_self keyEq _ _ _ (keyEq_self hk)]

/-! ## C1: get after set -/

/-- C1 (as stated, refuted): storing the non-nil value `true` under the key
not-a-number in the empty table and reading that key back yields nil, not `true`:
the entry lands in `dict`, where no lookup can find a key that differs from
itself. -/
theorem C1_counterexample_nan :
    LValue.LBool true ≠ LNil ∧
    RawGet 67108864 (RawSet 67108864 (newLTable 0 0) (.LNumber .nan) (.LBool true))
      (.LNumber .nan) = LNil := by
  decide

/-- C1 (amended): for every table, every key `k` other than not-a-number and every
non-nil value `v`, `RawGet(k)` after `RawSet(k, v)` returns `v`, whichever segment
the routing rule sends `k` to. -/
theorem C1_get_after_set (M : Int) (tb : LTable) (k v : LValue)
    (hk : k ≠ .LNumber .nan) (hv : v ≠ LNil) :
    RawGet M (RawSet M tb k v) k = v :=
  RawGet_RawSet_self M tb k v hk hv

/-- C1, at a concrete input: the string key `"x"` on the empty table. -/
theorem C1_get_after_set_witness :
    RawGet 67108864 (RawSet 67108864 (newLTable 0 0) (.LString "x") (.LBool true))
      (.LString "x") = .LBool true :=
  C1_get_after_set 67108864 (newLTable 0 0) (.LString "x") (.LBool true) (by decide) (by decide)

/-! ## C2: the traversal with `Next` -/

/-- The cursor state of the table `{[0] = true}` once a traversal has started. -/
theorem Next_zero_key_first :
    Next (RawSet 67108864 (newLTable 0 0) (.LNumber (.ofInt 0)) (.LBool true)) LNil =
      some ((.LNumber (.ofInt 0), .LBool true), zeroKeyCursor) := by
  decide

/-- On the table `{[0] = true}`, `Next(0)` answers with the key `0` again and
leaves the cursor as it was. -/
theorem Next_zero_key_again :
    Next zeroKeyCursor (.LNumber (.ofInt 0)) =
      some ((.LNumber (.ofInt 0), .LBool true), zeroKeyCursor) := by
  decide

theorem Next_zero_key_loop (n : Nat) :
    Next.iterate n zeroKeyCursor (.LNumber (.ofInt 0)) =
      List.replicate n (.LNumber (.ofInt 0), .LBool true) := by
  induction n with
  | zero => rfl
  | succ n ih =>
    rw [Next.iterate, Next_zero_key_again]
    simp only [List.replicate_succ]
    rw [if_neg (by decide), ih]

/-- C2 (the code at the failing input): on the table obtained from the empty one
by `RawSet(0, true)`, the traversal `Next(nil)`, `Next(0)`, ... never returns
`(nil, nil)`: each of its first `n` calls, for every `n`, returns the key `0`
with the value `true`. -/
theorem C2_traversal_never_ends (n : Nat) :
    Next.iterate n (RawSet 67108864 (newLTable 0 0) (.LNumber (.ofInt 0)) (.LBool true)) LNil =
      List.replicate n (.LNumber (.ofInt 0), .LBool true) := by
  cases n with
  | zero => rfl
  | succ n =>
    rw [Next.iterate, Next_zero_key_first]
    simp only [List.replicate_succ]
    rw [if_neg (by decide), Next_zero_key_loop]

/-! ## C3, C4: `Remove` -/

/-- C3 (the code at the failing input): on the empty table `Remove(0)` and
`Remove(-1)` panic: both take the branch `i < 0` and index the empty array
segment at `larray - 1 = -1`. -/
theorem C3_Remove_panics_on_empty :
    Remove (newLTable 0 0) 0 = none ∧ Remove (newLTable 0 0) (-1) = none := by
  decide

/-- C4 (the code at the failing input): on a table whose array segment is
`[true]`, `Remove` at the least machine integer returns nil and leaves the array
segment as it was, where a position `≤ 0` should remove and return the last
element: `pos - 1` wraps around to the greatest machine integer, and the branch
`i >= larray` is taken. -/
theorem C4_Remove_minInt_wraps :
    Remove (Append (newLTable 0 0) (.LBool true)) (-9223372036854775808) =
      some (LNil, Append (newLTable 0 0) (.LBool true)) := by
  decide

theorem copyWithin_shift_right {α : Type} (a : List α) (i : Nat) (z : α) (hi : i < a.length) :
    copyWithin (a ++ [z]) (i + 1) i = a.take (i + 1) ++ a.drop i := by
  unfold copyWithin
  have h1 : min ((a ++ [z]).length - (i + 1)) ((a ++ [z]).length - i) = a.length - i := by
    simp; omega
  simp only [h1]
  rw [List.take_append_of_le_length (by omega), List.drop_append_of_le_length (by omega)]
  have h2 : (a.drop i ++ [z]).take (a.length - i) = a.drop i := by
    rw [List.take_append_of_le_length (by simp), List.take_of_length_le (by simp)]
  have h3 : (a ++ [z]).drop (i + 1 + (a.length - i)) = [] := by
    apply List.drop_eq_nil_of_le
    simp only [List.length_append, List.length_singleton]
    omega
  rw [h2, h3]
  simp

theorem set_take_succ_append_drop {α : Type} (a : List α) (i : Nat) (x : α) (hi : i < a.length) :
    (a.take (i + 1) ++ a.drop i).set i x = a.take i ++ x :: a.drop i := by
  apply List.ext_getElem?
  intro j
  simp only [List.getElem?_set, List.getElem?_append, List.getElem?_take, List.getElem?_drop,
    List.length_take, List.length_append, List.length_drop, List.getElem?_cons]
  have hm : min (i + 1) a.length = i + 1 := by omega
  have hm2 : min i a.length = i := by omega
  simp only [hm, hm2]
  by_cases h1 : j = i
  · subst h1; simp; omega
  · by_cases h2 : j < i
    · have : j < i + 1 := by omega
      simp [h1, h2, this, Ne.symm h1]
    · have h3 : ¬ j < i + 1 := by omega
      have h4 : j - i ≠ 0 := by omega
      simp [h2, h3, Ne.symm h1, h4]
      have h5 : j - (i + 1) = j - i - 1 := by omega
      rw [h5]


theorem insertAt_props {α : Type} (a : List α) (i : Nat) (x : α) (hi : i < a.length) :
    (a.take i ++ x :: a.drop i).length = a.length + 1 ∧
      (∀ j : Nat, j < i → (a.take i ++ x :: a.drop i)[j]? = a[j]?) ∧
      (a.take i ++ x :: a.drop i)[i]? = some x ∧
      (∀ j : Nat, i ≤ j → (a.take i ++ x :: a.drop i)[j + 1]? = a[j]?) := by
  have hm : min i a.length = i := by omega
  refine ⟨?_, ?_, ?_, ?_⟩
  · simp only [List.length_append, List.length_take, List.length_cons, List.length_drop]
    omega
  · intro j hj
    rw [List.getElem?_append_left (by simp only [List.length_take]; omega)]
    simp [List.getElem?_take, hj]
  · rw [List.getElem?_append_right (by simp only [List.length_take]; omega)]
    simp only [List.length_take, hm, Nat.sub_self]
    exact List.getElem?_cons_zero
  · intro j hj
    rw [List.getElem?_append_right (by simp only [List.length_take]; omega)]
    simp only [List.length_take, hm]
    have h0 : j + 1 - i = (j - i) + 1 := by omega
    rw [h0, List.getElem?_cons_succ, List.getElem?_drop]
    congr 1
    omega

/-! ## C5, C6: `Insert` -/

/-- `Insert` at a position inside the array segment, as an equation on tables. -/
theorem Insert_inside_eq (M : Int) (tb : LTable) (p : Int) (x : LValue)
    (h1 : 1 ≤ p) (h2 : p ≤ tb.array.length) :
    Insert M tb p x =
      { tb with array := tb.array.take (p - 1).toNat ++ x :: tb.array.drop (p - 1).toNat } := by
  have hi : (p - 1).toNat < tb.array.length := by omega
  unfold LTable.Insert
  rw [if_neg (by omega), if_neg (by omega)]
  simp only [copyWithin_shift_right tb.array _ LNil hi, set_take_succ_append_drop tb.array _ x hi]

/-- C5: for a table with array segment `a` of length `n`, a position `p` with
`1 ≤ p ≤ n` and a value `x`, `Insert(p, x)` makes the array segment
`a[1..p-1] ++ [x] ++ a[p..n]`, of length `n + 1`, every element from position `p`
on moved up by one, and leaves the string and general segments unchanged; on
`[a, b]`, `Insert(1, x)` yields `[x, a, b]`. -/
theorem C5_Insert_inside (M : Int) (tb : LTable) (p : Int) (x : LValue)
    (h1 : 1 ≤ p) (h2 : p ≤ tb.array.length) :
    (Insert M tb p x).array =
        tb.array.take (p - 1).toNat ++ [x] ++ tb.array.drop (p - 1).toNat ∧
      (Insert M tb p x).array.length = tb.array.length + 1 ∧
      (∀ j : Nat, j < (p - 1).toNat → (Insert M tb p x).array[j]? = tb.array[j]?) ∧
      (Insert M tb p x).array[(p - 1).toNat]? = some x ∧
      (∀ j : Nat, (p - 1).toNat ≤ j → (Insert M tb p x).array[j + 1]? = tb.array[j]?) ∧
      (Insert M tb p x).dict = tb.dict ∧
      (Insert M tb p x).strdict = tb.strdict ∧
      (∀ a b : LValue, tb.array = [a, b] → p = 1 → (Insert M tb p x).array = [x, a, b]) := by
  have hi : (p - 1).toNat < tb.array.length := by omega
  obtain ⟨hlen, hlo, hat, hhi⟩ := insertAt_props tb.array (p - 1).toNat x hi
  rw [Insert_inside_eq M tb p x h1 h2]
  refine ⟨by simp, hlen, hlo, hat, hhi, rfl, rfl, ?_⟩
  intro a b hab hp
  subst hp
  simp [hab]

/-- C5, at a concrete input: `Insert(1, x)` on `[a, b]`. -/
theorem C5_Insert_inside_witness :
    (Insert 67108864 { newLTable 0 0 with array := [.LBool true, .LBool false] } 1
        (.LString "x")).array = [.LString "x", .LBool true, .LBool false] :=
  (C5_Insert_inside 67108864 { newLTable 0 0 with array := [.LBool true, .LBool false] } 1
    (.LString "x") (by decide) (by decide)).2.2.2.2.2.2.2 (.LBool true) (.LBool false) rfl rfl

theorem isArrayKey_ofInt_nonpos (M p : Int) (hp : p ≤ 0) :
    isArrayKey M (Float64.ofInt p) = false := by
  rw [isArrayKey_ofInt]
  simp
  intro h
  omega

theorem RawSet_ofInt_nonpos (M : Int) (tb : LTable) (p : Int) (x : LValue) (hp : p ≤ 0) :
    RawSet M tb (.LNumber (.ofInt p)) x =
      if x = LNil then { tb with dict := mapDelete keyEq tb.dict (.LNumber (.ofInt p)) }
      else { tb with dict := mapSet keyEq tb.dict (.LNumber (.ofInt p)) x } := by
  simp [RawSet, isArrayKey_ofInt_nonpos M p hp, RawSetH]

/-- C6: for every table, every position `p ≤ 0` and every value `x`, `Insert(p, x)`
is `RawSet(LNumber(p), x)`: the array and string segments are unchanged, the
general segment is the one `RawSetH` makes (the key `p` is deleted when `x` is
nil, stored with `x` otherwise), and when `x` is non-nil the numeric key `p` of
the general segment holds `x`, so that `RawGet(LNumber(p))` returns `x`. -/
theorem C6_Insert_nonpositive (M : Int) (tb : LTable) (p : Int) (x : LValue) (hp : p ≤ 0) :
    Insert M tb p x = RawSet M tb (.LNumber (.ofInt p)) x ∧
      (Insert M tb p x).array = tb.array ∧
      (Insert M tb p x).array.length = tb.array.length ∧
      (Insert M tb p x).strdict = tb.strdict ∧
      (Insert M tb p x).dict = (RawSetH tb (.LNumber (.ofInt p)) x).dict ∧
      (x ≠ LNil →
        mapGet keyEq (Insert M tb p x).dict (.LNumber (.ofInt p)) = some x ∧
        RawGet M (Insert M tb p x) (.LNumber (.ofInt p)) = x) := by
  have hI : Insert M tb p x = RawSet M tb (.LNumber (.ofInt p)) x := by
    unfold LTable.Insert
    rw [if_neg (by omega), if_pos hp]
  have hne : (LValue.LNumber (Float64.ofInt p)) ≠ .LNumber .nan := by
    simp [Float64.ofInt]
  rw [hI, RawSet_ofInt_nonpos M tb p x hp]
  refine ⟨rfl, ?_, ?_, ?_, ?_, ?_⟩
  · split_ifs <;> rfl
  · split_ifs <;> rfl
  · split_ifs <;> rfl
  · simp only [RawSetH]
  · intro hx
    rw [if_neg hx]
    refine ⟨mapGet_mapSet_self keyEq _ _ _ (keyEq_self hne), ?_⟩
    simp [RawGet, isArrayKey_ofInt_nonpos M p hp,
      mapGet_mapSet_self keyEq _ _ _ (keyEq_self hne)]

/-- C6, at a concrete input: `Insert(0, x)` on `[a, b]`. -/
theorem C6_Insert_nonpositive_witness :
    (Insert 67108864 { newLTable 0 0 with array := [.LBool true, .LBool false] } 0
        (.LString "x")).array.length = 2 :=
  (C6_Insert_nonpositive 67108864 { newLTable 0 0 with array := [.LBool true, .LBool false] } 0
    (.LString "x") (by decide)).2.2.1

/-! ## C7, C8, C9: `Len` and `MaxN` -/

theorem MaxN_loop_le (a : List LValue) (n : Nat) : MaxN.loop a n ≤ n := by
  induction n with
  | zero => simp [MaxN.loop]
  | succ i ih =>
    simp only [MaxN.loop]
    split_ifs
    · exact Nat.le_refl _
    · omega

theorem MaxN_loop_above (a : List LValue) (n j : Nat) (h1 : MaxN.loop a n ≤ j) (h2 : j < n) :
    a.getD j LNil = LNil := by
  induction n with
  | zero => omega
  | succ i ih =>
    simp only [MaxN.loop] at h1
    split_ifs at h1 with hv
    · omega
    · by_cases hj : j = i
      · subst hj; simpa using hv
      · exact ih h1 (by omega)

theorem MaxN_loop_at (a : List LValue) (n : Nat) (h : 0 < MaxN.loop a n) :
    a.getD (MaxN.loop a n - 1) LNil ≠ LNil := by
  induction n with
  | zero => simp [MaxN.loop] at h
  | succ i ih =>
    simp only [MaxN.loop] at h ⊢
    split_ifs at h ⊢ with hv
    · simpa using hv
    · exact ih h

theorem Len_loop_eq_MaxN_loop (a : List LValue) (n : Nat) :
    Len.loop a n LNil = MaxN.loop a n := by
  induction n with
  | zero => rfl
  | succ i ih =>
    simp only [Len.loop, MaxN.loop, true_and]
    split_ifs with hv
    · rfl
    · have hv' : a.getD i LNil = LNil := by simpa using hv
      rw [hv', ih]

theorem getD_eq_nil_of_length_le (a : List LValue) (j : Nat) (h : a.length ≤ j) :
    a.getD j LNil = LNil := by
  simp [List.getD_eq_getElem?_getD, List.getElem?_eq_none h]

theorem MaxN_eq_zero_iff (tb : LTable) : MaxN tb = 0 ↔ ∀ v ∈ tb.array, v = LNil := by
  constructor
  · intro h v hv
    obtain ⟨j, hj, rfl⟩ := List.mem_iff_getElem.mp hv
    have := MaxN_loop_above tb.array tb.array.length j (by rw [show MaxN.loop tb.array tb.array.length = 0 from h]; omega) hj
    simpa [List.getD_eq_getElem?_getD, List.getElem?_eq_getElem hj] using this
  · intro h
    by_contra hne
    have hpos : 0 < MaxN.loop tb.array tb.array.length := Nat.pos_of_ne_zero hne
    have hat := MaxN_loop_at tb.array tb.array.length hpos
    have hle := MaxN_loop_le tb.array tb.array.length
    have hlt : MaxN.loop tb.array tb.array.length - 1 < tb.array.length := by omega
    apply hat
    rw [List.getD_eq_getElem?_getD, List.getElem?_eq_getElem hlt]
    exact h _ (List.getElem_mem _)

theorem MaxN_greatest (tb : LTable) (i : Nat) (hi : 1 ≤ i)
    (hne : tb.array.getD (i - 1) LNil ≠ LNil) : i ≤ MaxN tb := by
  by_contra hlt
  apply hne
  by_cases hlen : i - 1 < tb.array.length
  · exact MaxN_loop_above tb.array tb.array.length (i - 1) (by unfold MaxN at hlt; omega) hlen
  · exact getD_eq_nil_of_length_le _ _ (by omega)

theorem MaxN_slot_above (tb : LTable) : tb.array.getD (MaxN tb) LNil = LNil := by
  by_cases hlen : MaxN tb < tb.array.length
  · exact MaxN_loop_above tb.array tb.array.length _ (Nat.le_refl _) hlen
  · exact getD_eq_nil_of_length_le _ _ (by omega)

theorem Len_eq_MaxN (tb : LTable) : Len tb = MaxN tb := Len_loop_eq_MaxN_loop _ _

/-- The result of `Len` is a border of the array segment. -/
theorem Len_is_border (tb : LTable) :
    (Len tb = 0 ∧ tb.array.getD 0 LNil = LNil) ∨
      (1 ≤ Len tb ∧ Len tb ≤ tb.array.length ∧
        tb.array.getD (Len tb - 1) LNil ≠ LNil ∧ tb.array.getD (Len tb) LNil = LNil) := by
  have habove := MaxN_slot_above tb
  rw [Len_eq_MaxN]
  by_cases h0 : MaxN tb = 0
  · left
    exact ⟨h0, by rw [h0] at habove; exact habove⟩
  · right
    exact ⟨by omega, MaxN_loop_le _ _, MaxN_loop_at _ _ (by unfold MaxN at h0; omega), habove⟩

/-- C9: for every table, `MaxN()` is the greatest 1-based index of a non-nil array
slot: it is at most the segment length, slot `MaxN()` is non-nil when
`MaxN() > 0`, no slot `i` that is non-nil lies above it, and it is `0` exactly
when the array segment is empty or holds only nil; for `[10, nil, 30]` it is 3. -/
theorem C9_MaxN_highest (tb : LTable) :
    MaxN tb ≤ tb.array.length ∧
      (0 < MaxN tb → tb.array.getD (MaxN tb - 1) LNil ≠ LNil) ∧
      (∀ i : Nat, 1 ≤ i → tb.array.getD (i - 1) LNil ≠ LNil → i ≤ MaxN tb) ∧
      (MaxN tb = 0 ↔ ∀ v ∈ tb.array, v = LNil) ∧
      MaxN { tb with array := [.LNumber (.ofInt 10), LNil, .LNumber (.ofInt 30)] } = 3 :=
  ⟨MaxN_loop_le _ _, MaxN_loop_at _ _, MaxN_greatest tb, MaxN_eq_zero_iff tb, by rfl⟩

/-- C7: for every table, `n = Len()` is a border of the array segment: either
`n = 0` and slot 1 is nil or absent, or `1 ≤ n ≤` segment length with slot `n`
non-nil and slot `n + 1` nil or absent; `Len()` is `0` exactly when the segment
is empty or entirely nil; for `[10, nil, 30]` the result is one of 1 and 3. -/
theorem C7_Len_border (tb : LTable) :
    ((Len tb = 0 ∧ tb.array.getD 0 LNil = LNil) ∨
        (1 ≤ Len tb ∧ Len tb ≤ tb.array.length ∧
          tb.array.getD (Len tb - 1) LNil ≠ LNil ∧ tb.array.getD (Len tb) LNil = LNil)) ∧
      (Len tb = 0 ↔ ∀ v ∈ tb.array, v = LNil) ∧
      (Len { tb with array := [.LNumber (.ofInt 10), LNil, .LNumber (.ofInt 30)] } = 1 ∨
        Len { tb with array := [.LNumber (.ofInt 10), LNil, .LNumber (.ofInt 30)] } = 3) :=
  ⟨Len_is_border tb, by rw [Len_eq_MaxN]; exact MaxN_eq_zero_iff tb, Or.inr (by rfl)⟩

theorem isArrayKey_toInt (M : Int) (f : Float64) (hf : isArrayKey M f = true) :
    1 ≤ f.toInt ∧ f.toInt < M := by
  simp only [isArrayKey, Bool.and_eq_true, decide_eq_true_eq] at hf
  exact ⟨hf.1.2, hf.2⟩

theorem RawSet_arrayKey_inBounds (M : Int) (tb : LTable) (f : Float64) (v : LValue)
    (hf : isArrayKey M f = true) (hb : f.toInt ≤ tb.array.length) :
    RawSet M tb (.LNumber f) v = { tb with array := tb.array.set (f.toInt - 1).toNat v } := by
  have h1 := (isArrayKey_toInt M f hf).1
  simp only [RawSet, hf, if_true]
  rw [if_neg (by omega), if_neg (by omega)]

/-- C8 (as stated, refuted): in the array segment `[true, true, true]` the key 1 is
array-eligible and within bounds, and after `RawSet(1, nil)` the segment still
has three slots but `Len()` is 3, which is not `≤ 1`. -/
theorem C8_counterexample_Len_above :
    isArrayKey 67108864 (.ofInt 1) = true ∧
      (RawSet 67108864 { newLTable 0 0 with array := [.LBool true, .LBool true, .LBool true] }
        (.LNumber (.ofInt 1)) LNil).array.length = 3 ∧
      Len (RawSet 67108864
        { newLTable 0 0 with array := [.LBool true, .LBool true, .LBool true] }
        (.LNumber (.ofInt 1)) LNil) = 3 := by
  decide

/-- C8 (amended): for every table and every array-eligible key `p` within the
bounds of the array segment, after `RawSet(p, nil)` the array segment still has
the same number of slots, slot `p` is nil, and `Len()` reports a border of the
segment that is not `p`: it is below `p` when every slot above `p` is nil, and
above `p` when some slot above `p` is non-nil. -/
theorem C8_hole_preservation (M : Int) (tb : LTable) (f : Float64)
    (hf : isArrayKey M f = true) (hb : f.toInt ≤ tb.array.length) :
    (RawSet M tb (.LNumber f) LNil).array.length = tb.array.length ∧
      (RawSet M tb (.LNumber f) LNil).array.getD (f.toInt - 1).toNat LNil = LNil ∧
      ((Len (RawSet M tb (.LNumber f) LNil) = 0 ∧
          (RawSet M tb (.LNumber f) LNil).array.getD 0 LNil = LNil) ∨
        (1 ≤ Len (RawSet M tb (.LNumber f) LNil) ∧
          Len (RawSet M tb (.LNumber f) LNil) ≤ tb.array.length ∧
          (RawSet M tb (.LNumber f) LNil).array.getD
            (Len (RawSet M tb (.LNumber f) LNil) - 1) LNil ≠ LNil ∧
          (RawSet M tb (.LNumber f) LNil).array.getD
            (Len (RawSet M tb (.LNumber f) LNil)) LNil = LNil)) ∧
      (Len (RawSet M tb (.LNumber f) LNil) : Int) ≠ f.toInt ∧
      ((∀ j : Nat, f.toInt ≤ j → tb.array.getD j LNil = LNil) →
        (Len (RawSet M tb (.LNumber f) LNil) : Int) < f.toInt) ∧
      ((∃ j : Nat, f.toInt ≤ j ∧ tb.array.getD j LNil ≠ LNil) →
        f.toInt < (Len (RawSet M tb (.LNumber f) LNil) : Int)) := by
  have h1 := (isArrayKey_toInt M f hf).1
  rw [RawSet_arrayKey_inBounds M tb f LNil hf hb]
  generalize hi : (f.toInt - 1).toNat = i
  have hp : f.toInt = (i : Int) + 1 := by omega
  have hilt : i < tb.array.length := by omega
  set tb' : LTable := { tb with array := tb.array.set i LNil } with htb'
  have hlen : tb'.array.length = tb.array.length := by simp [htb']
  have hslot : tb'.array.getD i LNil = LNil := by
    simp [htb', List.getD_eq_getElem?_getD, List.getElem?_set, hilt]
  have hother : ∀ j : Nat, j ≠ i → tb'.array.getD j LNil = tb.array.getD j LNil := by
    intro j hj
    simp [htb', List.getD_eq_getElem?_getD, List.getElem?_set, Ne.symm hj]
  have hborder := Len_is_border tb'
  rw [hlen] at hborder
  have hne : (Len tb' : Int) ≠ f.toInt := by
    intro heq
    rcases hborder with ⟨h0, _⟩ | ⟨_, _, hnn, _⟩
    · omega
    · apply hnn
      have : Len tb' - 1 = i := by omega
      rw [this]; exact hslot
  refine ⟨hlen, hslot, hborder, hne, ?_, ?_⟩
  · intro hall
    by_contra hge
    have hgt : i + 1 < Len tb' := by omega
    rcases hborder with ⟨h0, _⟩ | ⟨_, _, hnn, _⟩
    · omega
    · apply hnn
      rw [hother _ (by omega)]
      exact hall _ (by omega)
  · rintro ⟨j, hj, hjne⟩
    have hji : j ≠ i := by omega
    have hjne' : tb'.array.getD (j + 1 - 1) LNil ≠ LNil := by
      rw [Nat.add_sub_cancel, hother j hji]; exact hjne
    have := MaxN_greatest tb' (j + 1) (by omega) hjne'
    rw [Len_eq_MaxN]
    omega

/-- C8, at a concrete input: the key 1 of `[true, true, true]`. -/
theorem C8_hole_preservation_witness :
    (RawSet 67108864 { newLTable 0 0 with array := [.LBool true, .LBool true, .LBool true] }
        (.LNumber (.ofInt 1)) LNil).array.length = 3 :=
  (C8_hole_preservation 67108864
    { newLTable 0 0 with array := [.LBool true, .LBool true, .LBool true] } (.ofInt 1)
    (by decide) (by decide)).1

/-! ## `ForEach` as a list of calls -/

theorem ForEach_array_calls (a : List LValue) (i : Nat) (acc : List (LValue × LValue)) :
    ForEach.array (fun acc k v => acc ++ [(k, v)]) a i acc = acc ++ arrayPairs a i := by
  induction a generalizing i acc with
  | nil => simp [ForEach.array, arrayPairs]
  | cons v rest ih =>
    simp only [ForEach.array, arrayPairs, ih]
    split_ifs <;> simp

theorem ForEach_entries_calls {κ : Type} (f : κ → LValue) (m : List (κ × LValue))
    (acc : List (LValue × LValue)) :
    ForEach.entries (fun acc k v => acc ++ [(k, v)]) f m acc = acc ++ entryPairs f m := by
  induction m generalizing acc with
  | nil => simp [ForEach.entries, entryPairs]
  | cons e rest ih =>
    obtain ⟨k, v⟩ := e
    simp only [ForEach.entries, entryPairs, ih]
    split_ifs <;> simp

/-- The calls of `ForEach`: the array segment, then the string segment, then the
general segment. -/
theorem ForEach_calls_eq (tb : LTable) :
    ForEach.calls tb =
      arrayPairs tb.array 0 ++ (entryPairs LValue.LString tb.strdict ++ entryPairs id tb.dict) := by
  simp [ForEach.calls, ForEach, ForEach_array_calls, ForEach_entries_calls]

theorem mem_arrayPairs (a : List LValue) (i : Nat) (k v : LValue)
    (h : (k, v) ∈ arrayPairs a i) :
    ∃ j : Nat, j < a.length ∧ k = .LNumber (.ofInt ((i + j : Nat) + 1)) ∧ a[j]? = some v ∧
      v ≠ LNil := by
  induction a generalizing i with
  | nil => simp [arrayPairs] at h
  | cons w rest ih =>
    simp only [arrayPairs, List.mem_append] at h
    rcases h with h | h
    · split_ifs at h with hw
      · simp only [List.mem_singleton, Prod.mk.injEq] at h
        obtain ⟨rfl, rfl⟩ := h
        exact ⟨0, by simp, by simp, by simp, hw⟩
      · simp at h
    · obtain ⟨j, hj, hk, hv, hne⟩ := ih (i + 1) h
      refine ⟨j + 1, by simp; omega, ?_, by simpa using hv, hne⟩
      rw [hk]
      have : i + 1 + j = i + (j + 1) := by omega
      rw [this]

theorem mem_entryPairs {κ : Type} (f : κ → LValue) (m : List (κ × LValue)) (k v : LValue)
    (h : (k, v) ∈ entryPairs f m) : ∃ k0 : κ, (k0, v) ∈ m ∧ k = f k0 ∧ v ≠ LNil := by
  induction m with
  | nil => simp [entryPairs] at h
  | cons e rest ih =>
    obtain ⟨k1, v1⟩ := e
    simp only [entryPairs, List.mem_append] at h
    rcases h with h | h
    · split_ifs at h with hw
      · simp only [List.mem_singleton, Prod.mk.injEq] at h
        obtain ⟨rfl, rfl⟩ := h
        exact ⟨k1, by simp, rfl, hw⟩
      · simp at h
    · obtain ⟨k0, hm, hk, hne⟩ := ih h
      exact ⟨k0, by simp [hm], hk, hne⟩

theorem mem_mapDelete {κ α : Type} (eq : κ → κ → Bool) (m : List (κ × α)) (k : κ)
    (e : κ × α) (h : e ∈ mapDelete eq m k) : e ∈ m ∧ eq e.1 k = false := by
  simp only [mapDelete, List.mem_filter, Bool.not_eq_true'] at h
  exact h

/-! ## What a call of `Next` can return -/

theorem Next_live_congr (tb tb2 : LTable) (hd : tb2.dict = tb.dict)
    (hs : tb2.strdict = tb.strdict) (k : LValue) : Next.live tb2 k = Next.live tb k := by
  cases k <;> simp [Next.live, hd, hs]

theorem Next_live_ne_nil (tb : LTable) (k v : LValue) (h : Next.live tb k = some v) :
    v ≠ LNil := by
  cases k <;> simp only [Next.live] at h <;> split at h <;>
    first
    | (split_ifs at h with hv; cases h; exact hv)
    | cases h

theorem Next_cursor_segments (tb : LTable) (key : LValue) :
    (Next.cursor tb key).array = tb.array ∧ (Next.cursor tb key).dict = tb.dict ∧
      (Next.cursor tb key).strdict = tb.strdict ∧
      (Next.cursor tb key).Metatable = tb.Metatable := by
  unfold Next.cursor
  by_cases hk : key = LNil <;> simp only [hk, if_true, if_false] <;> split_ifs <;>
    simp [Next.snapshot]

theorem Next_scan_found (a : List LValue) (fuel i j : Nat) (v : LValue)
    (h : Next.scan a fuel i = (j, some v)) : a[j]? = some v ∧ v ≠ LNil := by
  induction fuel generalizing i with
  | zero => simp [Next.scan] at h
  | succ fuel ih =>
    simp only [Next.scan] at h
    split at h
    · rename_i w hw
      split_ifs at h with hne
      · simp only [Prod.mk.injEq, Option.some.injEq] at h
        obtain ⟨rfl, rfl⟩ := h
        exact ⟨hw, hne⟩
      · exact ih _ h
    · simp at h

theorem Next_hash_found (tb : LTable) (length fuel i : Nat) (k v : LValue)
    (h : Next.hash tb length fuel i = some (some (k, v))) : Next.live tb k = some v := by
  induction fuel generalizing i with
  | zero => simp [Next.hash] at h
  | succ fuel ih =>
    simp only [Next.hash] at h
    split_ifs at h with hlt
    · split at h
      · simp at h
      · rename_i key hkey
        split at h
        · rename_i w hw
          simp only [Option.some.injEq, Prod.mk.injEq] at h
          obtain ⟨rfl, rfl⟩ := h
          exact hw
        · exact ih _ h
    · simp at h

theorem Next_rest_result (tb : LTable) (key : LValue) (r : LValue × LValue) (tb2 : LTable)
    (h : Next.rest tb key = some (r, tb2)) :
    (tb2.array = tb.array ∧ tb2.dict = tb.dict ∧ tb2.strdict = tb.strdict ∧
        tb2.Metatable = tb.Metatable) ∧
      (r.1 = LNil ∨ Next.live tb r.1 = some r.2) := by
  simp only [Next.rest] at h
  split at h
  · simp at h
  · rename_i kv hkv
    simp only [Option.some.injEq, Prod.mk.injEq] at h
    obtain ⟨rfl, rfl⟩ := h
    exact ⟨⟨rfl, rfl, rfl, rfl⟩, Or.inr (Next_hash_found _ _ _ _ _ _ hkv)⟩
  · simp only [Option.some.injEq, Prod.mk.injEq] at h
    obtain ⟨rfl, rfl⟩ := h
    exact ⟨⟨rfl, rfl, rfl, rfl⟩, Or.inl rfl⟩

theorem Next_body_result (tb : LTable) (key : LValue) (r : LValue × LValue) (tb2 : LTable)
    (h : Next.body tb key = some (r, tb2)) :
    (tb2.array = tb.array ∧ tb2.dict = tb.dict ∧ tb2.strdict = tb.strdict ∧
        tb2.Metatable = tb.Metatable) ∧
      (r.1 = LNil ∨
        (∃ j : Nat, r.1 = .LNumber (.ofInt ((j : Nat) + 1)) ∧ tb.array[j]? = some r.2 ∧
          r.2 ≠ LNil) ∨
        Next.live tb r.1 = some r.2) := by
  have hrest : ∀ key', Next.rest tb key' = some (r, tb2) →
      (tb2.array = tb.array ∧ tb2.dict = tb.dict ∧ tb2.strdict = tb.strdict ∧
        tb2.Metatable = tb.Metatable) ∧
      (r.1 = LNil ∨
        (∃ j : Nat, r.1 = .LNumber (.ofInt ((j : Nat) + 1)) ∧ tb.array[j]? = some r.2 ∧
          r.2 ≠ LNil) ∨
        Next.live tb r.1 = some r.2) := by
    intro key' h'
    obtain ⟨hs, hr⟩ := Next_rest_result tb key' r tb2 h'
    exact ⟨hs, hr.elim Or.inl (fun x => Or.inr (Or.inr x))⟩
  cases key with
  | LNumber kv =>
    simp only [Next.body] at h
    by_cases hint : kv.isInteger = true ∧ kv.toInt ≥ 0
    · rw [if_pos hint] at h
      rcases hscan : Next.scan tb.array (tb.array.length - kv.toInt.toNat) kv.toInt.toNat
        with ⟨index, ov⟩
      rw [hscan] at h
      cases ov with
      | some v =>
        simp only [Option.some.injEq, Prod.mk.injEq] at h
        obtain ⟨rfl, rfl⟩ := h
        obtain ⟨hget, hne⟩ := Next_scan_found _ _ _ _ _ hscan
        exact ⟨⟨rfl, rfl, rfl, rfl⟩, Or.inr (Or.inl ⟨index, rfl, hget, hne⟩)⟩
      | none =>
        simp only at h
        by_cases hidx : index = tb.array.length
        · rw [if_pos hidx] at h
          by_cases hempty : tb.dict.length = 0 ∧ tb.strdict.length = 0
          · rw [if_pos hempty] at h
            simp only [Option.some.injEq, Prod.mk.injEq] at h
            obtain ⟨rfl, rfl⟩ := h
            exact ⟨⟨rfl, rfl, rfl, rfl⟩, Or.inl rfl⟩
          · rw [if_neg hempty] at h
            cases hkey0 : (tb.keys.getD [])[0]? with
            | none => simp [hkey0] at h
            | some key0 =>
              simp only [hkey0] at h
              cases hv : Next.live tb key0 with
              | none =>
                simp only [hv] at h
                exact hrest _ h
              | some v =>
                simp only [hv, Option.some.injEq, Prod.mk.injEq] at h
                obtain ⟨rfl, rfl⟩ := h
                exact ⟨⟨rfl, rfl, rfl, rfl⟩, Or.inr (Or.inr hv)⟩
        · rw [if_neg hidx] at h
          exact hrest _ h
    · rw [if_neg hint] at h
      exact hrest _ h
  | _ => exact hrest _ h

/-- A call of `Next` leaves the three segments as they are, and the key it returns
is nil, or the position of a non-nil array slot, or a key of the string or general
segment read back with its current non-nil value. -/
theorem Next_result (tb : LTable) (key : LValue) (r : LValue × LValue) (tb2 : LTable)
    (h : Next tb key = some (r, tb2)) :
    (tb2.array = tb.array ∧ tb2.dict = tb.dict ∧ tb2.strdict = tb.strdict ∧
        tb2.Metatable = tb.Metatable) ∧
      (r.1 = LNil ∨
        (∃ j : Nat, r.1 = .LNumber (.ofInt ((j : Nat) + 1)) ∧ tb.array[j]? = some r.2 ∧
          r.2 ≠ LNil) ∨
        Next.live tb r.1 = some r.2) := by
  obtain ⟨ha, hd, hs, hm⟩ := Next_cursor_segments tb key
  obtain ⟨⟨ha2, hd2, hs2, hm2⟩, hr⟩ := Next_body_result _ _ r tb2 h
  refine ⟨⟨ha2.trans ha, hd2.trans hd, hs2.trans hs, hm2.trans hm⟩, ?_⟩
  rw [ha, Next_live_congr tb _ hd hs] at hr
  exact hr

/-! ## The general segment of a reachable table holds no string key -/

theorem mem_mapSet_key {κ α : Type} (eq : κ → κ → Bool) (m : List (κ × α)) (k : κ) (v : α)
    (e : κ × α) (h : e ∈ mapSet eq m k v) : e.1 = k ∨ ∃ e' ∈ m, e'.1 = e.1 := by
  induction m with
  | nil =>
    simp only [mapSet, List.mem_singleton] at h
    exact Or.inl (by rw [h])
  | cons e0 m ih =>
    obtain ⟨k0, v0⟩ := e0
    simp only [mapSet] at h
    split_ifs at h with hk
    · rcases List.mem_cons.mp h with h | h
      · exact Or.inr ⟨(k0, v0), by simp, by rw [h]⟩
      · exact Or.inr ⟨e, by simp [h], rfl⟩
    · rcases List.mem_cons.mp h with h | h
      · exact Or.inr ⟨(k0, v0), by simp, by rw [h]⟩
      · rcases ih h with h | ⟨e', he', hk'⟩
        · exact Or.inl h
        · exact Or.inr ⟨e', by simp [he'], hk'⟩

theorem noStringKey_mapSet (m : List (LValue × LValue)) (k v : LValue)
    (hm : noStringKey m) (hk : ∀ s : String, k ≠ .LString s) :
    noStringKey (mapSet keyEq m k v) := by
  intro e he s
  rcases mem_mapSet_key keyEq m k v e he with h | ⟨e', he', hk'⟩
  · rw [h]; exact hk s
  · rw [← hk']; exact hm e' he' s

theorem noStringKey_mapDelete (m : List (LValue × LValue)) (k : LValue) (hm : noStringKey m) :
    noStringKey (mapDelete keyEq m k) :=
  fun e he s => hm e (mem_mapDelete keyEq m k e he).1 s

theorem RawSetString_dict (tb : LTable) (s : String) (v : LValue) :
    (RawSetString tb s v).dict = tb.dict := by
  unfold RawSetString
  split_ifs <;> rfl

theorem noStringKey_RawSetH (tb : LTable) (k v : LValue) (h : noStringKey tb.dict) :
    noStringKey (RawSetH tb k v).dict := by
  cases k with
  | LString s => simpa [RawSetH, RawSetString_dict] using h
  | _ =>
    simp only [RawSetH]
    split_ifs
    · exact noStringKey_mapDelete _ _ h
    · exact noStringKey_mapSet _ _ _ h (by simp)

theorem noStringKey_RawSet (M : Int) (tb : LTable) (k v : LValue) (h : noStringKey tb.dict) :
    noStringKey (RawSet M tb k v).dict := by
  cases k with
  | LNumber f =>
    simp only [RawSet]
    split_ifs
    · exact h
    · exact h
    · exact h
    · exact noStringKey_RawSetH tb _ v h
  | LString s => simpa [RawSet, RawSetString_dict] using h
  | _ => exact noStringKey_RawSetH tb _ v h

theorem noStringKey_RawSetInt (M : Int) (tb : LTable) (k : Int) (v : LValue)
    (h : noStringKey tb.dict) : noStringKey (RawSetInt M tb k v).dict := by
  simp only [RawSetInt]
  split_ifs
  · exact noStringKey_RawSetH tb _ v h
  · exact h
  · exact h
  · exact h

theorem noStringKey_Insert (M : Int) (tb : LTable) (i : Int) (v : LValue)
    (h : noStringKey tb.dict) : noStringKey (Insert M tb i v).dict := by
  simp only [LTable.Insert]
  split_ifs
  · exact noStringKey_RawSetInt M tb i v h
  · exact noStringKey_RawSet M tb _ v h
  · exact h

/-- A successful `Remove` touches the array segment only. -/
theorem Remove_segments (tb tb2 : LTable) (pos : Int) (v : LValue)
    (h : Remove tb pos = some (v, tb2)) :
    tb2.dict = tb.dict ∧ tb2.strdict = tb.strdict ∧ tb2.keys = tb.keys ∧ tb2.k2i = tb.k2i ∧
      tb2.Metatable = tb.Metatable := by
  simp only [Remove] at h
  split_ifs at h
  · simp only [Option.some.injEq, Prod.mk.injEq] at h
    obtain ⟨-, rfl⟩ := h
    exact ⟨rfl, rfl, rfl, rfl, rfl⟩
  · split at h
    · simp at h
    · simp only [Option.some.injEq, Prod.mk.injEq] at h
      obtain ⟨-, rfl⟩ := h
      exact ⟨rfl, rfl, rfl, rfl, rfl⟩
  · split at h
    · simp at h
    · simp only [Option.some.injEq, Prod.mk.injEq] at h
      obtain ⟨-, rfl⟩ := h
      exact ⟨rfl, rfl, rfl, rfl, rfl⟩

theorem Reachable_noStringKey (M : Int) (tb : LTable) (h : Reachable M tb) :
    noStringKey tb.dict := by
  induction h with
  | new acap hcap => intro e he; simp [newLTable] at he
  | rawSet k v _ ih => exact noStringKey_RawSet M _ k v ih
  | rawSetInt k v _ ih => exact noStringKey_RawSetInt M _ k v ih
  | rawSetString k v _ ih => rw [RawSetString_dict]; exact ih
  | rawSetH k v _ ih => exact noStringKey_RawSetH _ k v ih
  | append v _ ih => exact ih
  | insert i v _ ih => exact noStringKey_Insert M _ i v ih
  | remove pos v _ hrem ih => rw [(Remove_segments _ _ pos v hrem).1]; exact ih
  | next key r _ hnext ih => rw [(Next_result _ key r _ hnext).1.2.1]; exact ih
  | setMetatable mt _ ih => exact ih

/-! ## C10: deletion -/

theorem RawSet_nil_hash (M : Int) (tb : LTable) (k : LValue) (hroute : routesToArray M k = false) :
    RawSet M tb k LNil =
      match k with
      | .LString s => { tb with strdict := mapDelete strEq tb.strdict s }
      | k => { tb with dict := mapDelete keyEq tb.dict k } := by
  cases k with
  | LNumber f =>
    have hf : isArrayKey M f = false := hroute
    simp [RawSet, RawSetH, hf]
  | _ => simp [RawSet, RawSetH, RawSetString]

theorem Next_live_after_delete (M : Int) (tb : LTable) (k : LValue)
    (hroute : routesToArray M k = false) : Next.live (RawSet M tb k LNil) k = none := by
  rw [RawSet_nil_hash M tb k hroute]
  cases k <;> simp [Next.live, mapGet_mapDelete_self]

theorem RawGet_after_delete (M : Int) (tb : LTable) (k : LValue)
    (hroute : routesToArray M k = false) : RawGet M (RawSet M tb k LNil) k = LNil := by
  rw [RawSet_nil_hash M tb k hroute]
  cases k with
  | LNumber f =>
    have hf : isArrayKey M f = false := hroute
    simp [RawGet, hf, mapGet_mapDelete_self]
  | _ => simp [RawGet, mapGet_mapDelete_self]

theorem RawSet_nil_array (M : Int) (tb : LTable) (k : LValue)
    (hroute : routesToArray M k = false) : (RawSet M tb k LNil).array = tb.array := by
  rw [RawSet_nil_hash M tb k hroute]
  cases k <;> rfl

theorem RawSet_nil_absent (M : Int) (tb : LTable) (k : LValue)
    (hroute : routesToArray M k = false) (habs : hashEntry tb k = none) :
    RawSet M tb k LNil = tb := by
  rw [RawSet_nil_hash M tb k hroute]
  cases k <;> simp only [hashEntry] at habs <;>
    simp [mapDelete_of_absent _ _ _ habs]

theorem arrayPosition_routesToArray (M : Int) (j : Nat) (hj : (j : Int) + 1 < M) :
    routesToArray M (.LNumber (.ofInt ((j : Nat) + 1))) = true := by
  simp only [routesToArray, isArrayKey_ofInt, Bool.and_eq_true, decide_eq_true_eq]
  omega

theorem ForEach_calls_after_delete (M : Int) (tb : LTable) (k v : LValue)
    (hno : noStringKey tb.dict)
    (hnan : k = .LNumber .nan → ∀ e ∈ tb.dict, e.1 ≠ .LNumber .nan)
    (hroute : routesToArray M k = false) (harr : ¬ heldNonNilByArray tb k) :
    (k, v) ∉ ForEach.calls (RawSet M tb k LNil) := by
  intro hmem
  rw [ForEach_calls_eq, RawSet_nil_array M tb k hroute, List.mem_append, List.mem_append] at hmem
  rcases hmem with h | h | h
  · obtain ⟨j, -, hkj, hget, hne⟩ := mem_arrayPairs _ _ _ _ h
    rw [Nat.zero_add] at hkj
    exact harr ⟨j, v, hkj, hget, hne⟩
  · obtain ⟨s0, hm, hks, -⟩ := mem_entryPairs _ _ _ _ h
    subst hks
    rw [RawSet_nil_hash M tb _ hroute] at hm
    have := (mem_mapDelete strEq _ _ _ hm).2
    simp [strEq] at this
  · obtain ⟨k0, hm, hks, -⟩ := mem_entryPairs _ _ _ _ h
    simp only [id] at hks
    subst hks
    rw [RawSet_nil_hash M tb _ hroute] at hm
    have key : ∀ k' : LValue, (k', v) ∈ mapDelete keyEq tb.dict k' →
        (k' = .LNumber .nan → ∀ e ∈ tb.dict, e.1 ≠ .LNumber .nan) → False := by
      intro k' hdel hnan'
      have hd := mem_mapDelete keyEq _ _ _ hdel
      by_cases hk : k' = .LNumber .nan
      · exact hnan' hk _ hd.1 hk
      · have h2 := hd.2
        rw [keyEq_self hk] at h2
        cases h2
    cases k with
    | LString s => exact hno _ hm s rfl
    | _ => exact key _ hm hnan

theorem Next_iterate_never (k : LValue) (n : Nat) (tb : LTable) (key : LValue)
    (hlive : Next.live tb k = none) (harr : ¬ heldNonNilByArray tb k) :
    ∀ p ∈ Next.iterate n tb key, p.1 ≠ k := by
  induction n generalizing tb key with
  | zero => intro p hp; simp [Next.iterate] at hp
  | succ n ih =>
    intro p hp
    simp only [Next.iterate] at hp
    cases hnext : Next tb key with
    | none => simp [hnext] at hp
    | some res =>
      obtain ⟨⟨k1, v1⟩, tb2⟩ := res
      simp only [hnext] at hp
      split_ifs at hp with hnil
      · simp at hp
      · obtain ⟨⟨ha, hd, hs, -⟩, hr⟩ := Next_result tb key _ _ hnext
        rcases List.mem_cons.mp hp with hp | hp
        · subst hp
          rcases hr with hr | ⟨j, hj, hget, hne⟩ | hr
          · exact absurd hr hnil
          · intro heq
            simp only at hj heq hget hne
            exact harr ⟨j, v1, by rw [← heq, hj], hget, hne⟩
          · intro heq
            simp only at heq hr
            rw [heq, hlive] at hr
            cases hr
        · exact ih tb2 k1 (by rw [Next_live_congr tb tb2 hd hs]; exact hlive)
            (by
              rintro ⟨j, v, hk, hget, hne⟩
              exact harr ⟨j, v, hk, by rw [← ha]; exact hget, hne⟩) p hp

theorem not_heldNonNilByArray_of_short (M : Int) (tb : LTable) (k : LValue)
    (hroute : routesToArray M k = false) (hlen : (tb.array.length : Int) < M) :
    ¬ heldNonNilByArray tb k := by
  rintro ⟨j, v, hk, hget, -⟩
  have hj := (List.getElem?_eq_some_iff.mp hget).1
  rw [hk, arrayPosition_routesToArray M j (by omega)] at hroute
  cases hroute

theorem mem_arrayPairs_of_get (a : List LValue) (i j : Nat) (v : LValue)
    (h : a[j]? = some v) (hv : v ≠ LNil) :
    (LValue.LNumber (.ofInt ((i + j : Nat) + 1)), v) ∈ arrayPairs a i := by
  induction a generalizing i j with
  | nil => simp at h
  | cons w rest ih =>
    simp only [arrayPairs, List.mem_append]
    cases j with
    | zero =>
      simp only [List.getElem?_cons_zero, Option.some.injEq] at h
      subst h
      left
      simp [hv]
    | succ j =>
      right
      simp only [List.getElem?_cons_succ] at h
      have := ih (i + 1) j h
      have he : i + 1 + j = i + (j + 1) := by omega
      rw [he] at this
      exact this

theorem Reachable_replicate (M : Int) (n : Nat) (v : LValue) :
    Reachable M { newLTable 0 0 with array := List.replicate n v } := by
  induction n with
  | zero => exact Reachable.new 0 0
  | succ n ih =>
    have := Reachable.append v ih
    simpa [LTable.Append, List.replicate_succ'] using this

/-- C10 (as stated, refuted), at two inputs.  First, the key not-a-number routes to
the general segment, and in the table built by `RawSet(NaN, true)` the call
`RawSet(NaN, nil)` removes nothing (`delete` finds no key equal to NaN), so
`ForEach` still invokes its callback with the key NaN.  Second, `Append` makes no
threshold check: in the table built by 67108864 appends of `true` the key 67108864
(the threshold) routes to the general segment, and after `RawSet(67108864, nil)`
`ForEach` invokes its callback with that key, for slot 67108864 of the array
segment. -/
theorem C10_counterexample_ForEach :
    (routesToArray 67108864 (.LNumber .nan) = false ∧
      (LValue.LNumber .nan, LValue.LBool true) ∈
        ForEach.calls (RawSet 67108864
          (RawSet 67108864 (newLTable 0 0) (.LNumber .nan) (.LBool true))
          (.LNumber .nan) LNil)) ∧
    (Reachable 67108864 { newLTable 0 0 with array := List.replicate 67108864 (.LBool true) } ∧
      routesToArray 67108864 (.LNumber (.ofInt 67108864)) = false ∧
      (LValue.LNumber (.ofInt 67108864), LValue.LBool true) ∈
        ForEach.calls (RawSet 67108864
          { newLTable 0 0 with array := List.replicate 67108864 (.LBool true) }
          (.LNumber (.ofInt 67108864)) LNil)) := by
  refine ⟨by decide, Reachable_replicate _ _ _, ?_, ?_⟩
  · rw [routesToArray, isArrayKey_ofInt]; decide
  · have hroute : routesToArray 67108864 (.LNumber (.ofInt 67108864)) = false := by
      rw [routesToArray, isArrayKey_ofInt]; decide
    rw [ForEach_calls_eq, RawSet_nil_array _ _ _ hroute]
    apply List.mem_append_left
    have hget : (List.replicate 67108864 (LValue.LBool true))[67108863]? = some (.LBool true) := by
      rw [List.getElem?_replicate]; simp
    exact mem_arrayPairs_of_get _ 0 67108863 _ hget (by decide)

/-- C10 (amended): for every table and every key `k` that the routing rule sends
to the string or general segment, after `RawSet(k, nil)` the call `RawGet(k)`
returns nil, and when `k` had no entry before, `RawSet(k, nil)` changes nothing.
Unless `k` is the position of a non-nil slot of the array segment (it never is
while the array segment is shorter than the maximum array index), a traversal
started with `Next(nil)` never returns `k`; and unless, moreover, `k` is
not-a-number and the general segment holds a not-a-number key, `ForEach` on a
table built by the operations never invokes its callback with key `k`. -/
theorem C10_deletion (M : Int) (tb : LTable) (k : LValue)
    (hroute : routesToArray M k = false) :
    RawGet M (RawSet M tb k LNil) k = LNil ∧
      (hashEntry tb k = none → RawSet M tb k LNil = tb) ∧
      ((tb.array.length : Int) < M → ¬ heldNonNilByArray tb k) ∧
      (¬ heldNonNilByArray tb k →
        ∀ (n : Nat) (v : LValue), (k, v) ∉ Next.iterate n (RawSet M tb k LNil) LNil) ∧
      (Reachable M tb → ¬ heldNonNilByArray tb k →
        (k = .LNumber .nan → ∀ e ∈ tb.dict, e.1 ≠ .LNumber .nan) →
        ∀ v : LValue, (k, v) ∉ ForEach.calls (RawSet M tb k LNil)) := by
  refine ⟨RawGet_after_delete M tb k hroute, RawSet_nil_absent M tb k hroute,
    not_heldNonNilByArray_of_short M tb k hroute, ?_, ?_⟩
  · intro harr n v hmem
    refine Next_iterate_never k n _ LNil (Next_live_after_delete M tb k hroute) ?_ (k, v) hmem rfl
    rintro ⟨j, w, hk, hget, hne⟩
    rw [RawSet_nil_array M tb k hroute] at hget
    exact harr ⟨j, w, hk, hget, hne⟩
  · intro hreach harr hnan v
    exact ForEach_calls_after_delete M tb k v (Reachable_noStringKey M tb hreach) hnan hroute harr

/-- C10, at a concrete input: `set(t, "x", 1)` then `set(t, "x", nil)`; `get(t, "x")`
is nil and `"x"` does not appear in a full traversal. -/
theorem C10_deletion_witness :
    RawGet 67108864
        (RawSet 67108864
          (RawSet 67108864 (newLTable 0 0) (.LString "x") (.LNumber (.ofInt 1)))
          (.LString "x") LNil) (.LString "x") = LNil ∧
      (LValue.LString "x", LValue.LNumber (.ofInt 1)) ∉
        ForEach.calls
          (RawSet 67108864
            (RawSet 67108864 (newLTable 0 0) (.LString "x") (.LNumber (.ofInt 1)))
            (.LString "x") LNil) :=
  ⟨(C10_deletion 67108864
      (RawSet 67108864 (newLTable 0 0) (.LString "x") (.LNumber (.ofInt 1))) (.LString "x")
      (by decide)).1,
    (C10_deletion 67108864
      (RawSet 67108864 (newLTable 0 0) (.LString "x") (.LNumber (.ofInt 1))) (.LString "x")
      (by decide)).2.2.2.2 (Reachable.rawSet _ _ (Reachable.new 0 0))
      (by rintro ⟨j, v, hk, -, -⟩; cases hk) (by intro h; cases h) _⟩

/-! ## `Remove` away from its two failing inputs -/

theorem wrapInt_of_inRange (x : Int) (h1 : minInt ≤ x) (h2 : x ≤ maxInt) : wrapInt x = x := by
  unfold wrapInt
  unfold minInt at h1
  unfold maxInt at h2
  omega

theorem copyWithin_shift_left {α : Type} (a : List α) (i : Nat) (z : α)
    (hi : i + 1 < a.length) :
    ((copyWithin a i (i + 1)).set (a.length - 1) z).take (a.length - 1) =
      a.take i ++ a.drop (i + 1) := by
  unfold copyWithin
  have h1 : min (a.length - i) (a.length - (i + 1)) = a.length - (i + 1) := by omega
  simp only [h1]
  rw [List.take_of_length_le (l := a.drop (i + 1)) (by simp)]
  rw [List.set_take, ← List.append_assoc]
  have hlen : (a.take i ++ a.drop (i + 1)).length = a.length - 1 := by
    simp only [List.length_append, List.length_take, List.length_drop]
    omega
  rw [List.take_left' hlen]
  exact List.set_eq_of_length_le (by omega)

theorem indexInt_of_lt {α : Type} (a : List α) (i : Int) (h0 : 0 ≤ i) (h1 : i < a.length)
    (d : α) : indexInt a i = some (a.getD i.toNat d) := by
  have : i.toNat < a.length := by omega
  simp [indexInt, Int.not_lt.mpr h0, List.getD_eq_getElem?_getD, List.getElem?_eq_getElem this]

/-- The result of `Remove` at every position but the least machine integer:
beyond the segment nothing happens; the last position and the positions `≤ 0`
pop the last element when there is one, and panic when the segment is empty; a
position inside removes that element and shifts the later ones down. -/
theorem Remove_result (tb : LTable) (p : Int) (hlo : minInt < p) (hhi : p ≤ maxInt) :
    ((tb.array.length : Int) < p → Remove tb p = some (LNil, tb)) ∧
      (0 < tb.array.length → (p = tb.array.length ∨ p ≤ 0) →
        Remove tb p = some (tb.array.getD (tb.array.length - 1) LNil,
          { tb with array := tb.array.take (tb.array.length - 1) })) ∧
      (1 ≤ p → p < tb.array.length →
        Remove tb p = some (tb.array.getD (p - 1).toNat LNil,
          { tb with array := tb.array.take (p - 1).toNat ++ tb.array.drop p.toNat })) ∧
      (tb.array.length = 0 → p ≤ 0 → Remove tb p = none) := by
  have hw : wrapInt (p - 1) = p - 1 := wrapInt_of_inRange _ (by omega) (by omega)
  refine ⟨?_, ?_, ?_, ?_⟩
  · intro h
    simp only [Remove, hw]
    rw [if_pos (by omega)]
  · intro hpos hp
    simp only [Remove, hw]
    rw [if_neg (by omega), if_pos (by omega),
      indexInt_of_lt tb.array _ (by omega) (by omega) LNil]
    have : ((tb.array.length : Int) - 1).toNat = tb.array.length - 1 := by omega
    simp only [this]
  · intro h1 h2
    simp only [Remove, hw]
    rw [if_neg (by omega), if_neg (by omega),
      indexInt_of_lt tb.array _ (by omega) (by omega) LNil]
    have e1 : ((tb.array.length : Int) - 1).toNat = tb.array.length - 1 := by omega
    have e2 : p.toNat = (p - 1).toNat + 1 := by omega
    simp only [e1, e2]
    rw [copyWithin_shift_left tb.array _ LNil (by omega)]
  · intro h0 hp
    have hnil : tb.array = [] := List.eq_nil_of_length_eq_zero h0
    simp only [Remove, hw, h0, hnil]
    rw [if_neg (by omega), if_pos (by omega)]
    rfl

/-! ## C12, C16: `RawSet` on an array-eligible key, and `Append` -/

theorem RawSet_arrayKey_eq (M : Int) (tb : LTable) (f : Float64) (v : LValue)
    (hf : isArrayKey M f = true) :
    RawSet M tb (.LNumber f) v =
      { tb with array :=
          if (f.toInt - 1).toNat = tb.array.length then tb.array ++ [v]
          else if (f.toInt - 1).toNat > tb.array.length then
            tb.array ++ List.replicate ((f.toInt - 1).toNat - tb.array.length) LNil ++ [v]
          else tb.array.set (f.toInt - 1).toNat v } := by
  simp only [RawSet, hf, if_true, appendNils_eq]
  split_ifs <;> rfl

/-- C12: for a table with array segment `a` of length `n`, an array-eligible key
`k` and any value `v` (nil included), `RawSet(k, v)` leaves the string and general
segments unchanged and makes the array segment `a ++ [v]` when `k = n + 1`,
`a ++ (k - n - 1 nils) ++ [v]`, of length `k`, when `k > n + 1`, and `a` with slot
`k` replaced by `v`, still of length `n`, when `k ≤ n`. -/
theorem C12_RawSet_arrayKey (M : Int) (tb : LTable) (f : Float64) (v : LValue)
    (hf : isArrayKey M f = true) :
    (RawSet M tb (.LNumber f) v).dict = tb.dict ∧
      (RawSet M tb (.LNumber f) v).strdict = tb.strdict ∧
      (f.toInt = tb.array.length + 1 →
        (RawSet M tb (.LNumber f) v).array = tb.array ++ [v]) ∧
      (f.toInt > tb.array.length + 1 →
        (RawSet M tb (.LNumber f) v).array =
            tb.array ++ List.replicate (f.toInt - tb.array.length - 1).toNat LNil ++ [v] ∧
          ((RawSet M tb (.LNumber f) v).array.length : Int) = f.toInt) ∧
      (f.toInt ≤ tb.array.length →
        (RawSet M tb (.LNumber f) v).array = tb.array.set (f.toInt - 1).toNat v ∧
          (RawSet M tb (.LNumber f) v).array.length = tb.array.length ∧
          (RawSet M tb (.LNumber f) v).array[(f.toInt - 1).toNat]? = some v) := by
  have h1 := (isArrayKey_toInt M f hf).1
  rw [RawSet_arrayKey_eq M tb f v hf]
  refine ⟨rfl, rfl, ?_, ?_, ?_⟩
  · intro h
    simp only
    rw [if_pos (by omega)]
  · intro h
    simp only
    rw [if_neg (by omega), if_pos (by omega)]
    have e : (f.toInt - 1).toNat - tb.array.length = (f.toInt - tb.array.length - 1).toNat := by
      omega
    rw [e]
    refine ⟨rfl, ?_⟩
    simp only [List.length_append, List.length_replicate, List.length_singleton]
    omega
  · intro h
    simp only
    rw [if_neg (by omega), if_neg (by omega)]
    refine ⟨rfl, by simp, ?_⟩
    have : (f.toInt - 1).toNat < tb.array.length := by omega
    rw [List.getElem?_set_self this]

/-- C12, at a concrete input: `RawSet(4, "b")` on the array segment `["a"]`. -/
theorem C12_RawSet_arrayKey_witness :
    (RawSet 67108864 { newLTable 0 0 with array := [.LString "a"] } (.LNumber (.ofInt 4))
        (.LString "b")).array =
      [.LString "a"] ++ List.replicate 2 LNil ++ [.LString "b"] :=
  ((C12_RawSet_arrayKey 67108864 { newLTable 0 0 with array := [.LString "a"] } (.ofInt 4)
    (.LString "b") (by decide)).2.2.2.1 (by decide)).1

/-- C16: for a table whose array segment has length `n` with `n + 1` below the
maximum array index, and any value `v` (nil included), `Append(v)` produces the
same table as `RawSet(LNumber(n + 1), v)`: the array segment grows by exactly one
slot, holding `v`, and the string and general segments are unchanged. -/
theorem C16_Append_is_RawSet (M : Int) (tb : LTable) (v : LValue)
    (hn : (tb.array.length : Int) + 1 < M) :
    Append tb v = RawSet M tb (.LNumber (.ofInt ((tb.array.length : Int) + 1))) v ∧
      (Append tb v).array = tb.array ++ [v] ∧
      (Append tb v).array.length = tb.array.length + 1 ∧
      (Append tb v).array[tb.array.length]? = some v ∧
      (Append tb v).dict = tb.dict ∧
      (Append tb v).strdict = tb.strdict := by
  have hf : isArrayKey M (.ofInt ((tb.array.length : Int) + 1)) = true := by
    rw [isArrayKey_ofInt]
    simp only [Bool.and_eq_true, decide_eq_true_eq]
    omega
  refine ⟨?_, rfl, by simp [LTable.Append], by simp [LTable.Append], rfl, rfl⟩
  rw [RawSet_arrayKey_eq M tb _ v hf, Float64.toInt_ofInt]
  rw [if_pos (by omega)]
  rfl

/-- C16, at a concrete input: `Append("b")` on the array segment `["a"]`. -/
theorem C16_Append_is_RawSet_witness :
    Append { newLTable 0 0 with array := [.LString "a"] } (.LString "b") =
      RawSet 67108864 { newLTable 0 0 with array := [.LString "a"] }
        (.LNumber (.ofInt (((1 : Nat) : Int) + 1))) (.LString "b") :=
  (C16_Append_is_RawSet 67108864 { newLTable 0 0 with array := [.LString "a"] }
    (.LString "b") (by decide)).1

/-! ## C18: `Len` and `MaxN` -/

/-- C18: for every table, whatever nil holes its array segment contains, `Len()`
returns the same number as `MaxN()`: the backward scan of `Len` stops at the
highest non-nil slot, so no non-nil slot lies above `Len()`. -/
theorem C18_Len_eq_MaxN (tb : LTable) :
    Len tb = MaxN tb ∧
      (∀ i : Nat, 1 ≤ i → tb.array.getD (i - 1) LNil ≠ LNil → i ≤ Len tb) := by
  refine ⟨Len_eq_MaxN tb, ?_⟩
  rw [Len_eq_MaxN]
  exact MaxN_greatest tb

/-! ## C19: `RawSet` leaves the other keys alone -/

theorem Float64.eq_sound {a b : Float64} (h : Float64.eq a b = true) : a = b := by
  cases a <;> cases b <;> simp_all [Float64.eq]

theorem keyEq_sound {a b : LValue} (h : keyEq a b = true) : a = b := by
  cases a <;> cases b <;> simp_all [keyEq]
  exact Float64.eq_sound h

theorem strEq_sound {a b : String} (h : strEq a b = true) : a = b := by
  simpa [strEq] using h

theorem mapGet_mapSet_other {κ α : Type} (eq : κ → κ → Bool)
    (sound : ∀ a b, eq a b = true → a = b) (m : List (κ × α)) (k k2 : κ) (v : α)
    (hne : k ≠ k2) : mapGet eq (mapSet eq m k v) k2 = mapGet eq m k2 := by
  induction m with
  | nil =>
    have : eq k k2 = false := by
      cases h : eq k k2
      · rfl
      · exact absurd (sound _ _ h) hne
    simp [mapSet, mapGet, this]
  | cons e m ih =>
    obtain ⟨k', v'⟩ := e
    by_cases hk : eq k' k = true
    · have : eq k' k2 = false := by
        cases h : eq k' k2
        · rfl
        · exact absurd ((sound _ _ hk).symm.trans (sound _ _ h)) hne
      simp [mapSet, mapGet, hk, this]
    · simp [mapSet, mapGet, hk, ih]

theorem mapGet_mapDelete_other {κ α : Type} (eq : κ → κ → Bool)
    (sound : ∀ a b, eq a b = true → a = b) (m : List (κ × α)) (k k2 : κ)
    (hne : k ≠ k2) : mapGet eq (mapDelete eq m k) k2 = mapGet eq m k2 := by
  induction m with
  | nil => simp [mapDelete, mapGet]
  | cons e m ih =>
    obtain ⟨k', v'⟩ := e
    simp only [mapDelete] at ih ⊢
    by_cases hk : eq k' k = true
    · have : eq k' k2 = false := by
        cases h : eq k' k2
        · rfl
        · exact absurd ((sound _ _ hk).symm.trans (sound _ _ h)) hne
      simp [List.filter, hk, mapGet, this, ih]
    · simp [List.filter, hk, mapGet, ih]

theorem storeAt_get_other (a : List LValue) (i j : Nat) (v : LValue) (hij : i ≠ j) :
    (if i = a.length then a ++ [v]
      else if i > a.length then a ++ List.replicate (i - a.length) LNil ++ [v]
      else a.set i v).getD j LNil = a.getD j LNil := by
  simp only [List.getD_eq_getElem?_getD]
  split_ifs with h1 h2
  · subst h1
    by_cases hj : j < a.length
    · rw [List.getElem?_append_left hj]
    · rw [List.getElem?_eq_none (by simp; omega), List.getElem?_eq_none (by omega)]
  · by_cases hj : j < a.length
    · rw [List.append_assoc, List.getElem?_append_left hj]
    · rw [List.getElem?_eq_none (l := a) (by omega)]
      by_cases hj2 : j < i
      · rw [List.getElem?_append_left (by simp; omega),
          List.getElem?_append_right (by omega), List.getElem?_replicate]
        rw [if_pos (by omega)]
        rfl
      · rw [List.getElem?_eq_none (by simp; omega)]
  · rw [List.getElem?_set_ne hij]

theorem isArrayKey_toInt_inj (M : Int) (f g : Float64) (hf : isArrayKey M f = true)
    (hg : isArrayKey M g = true) (h : f.toInt = g.toInt) : f = g := by
  cases f with
  | finite q =>
    cases g with
    | finite r =>
      simp only [isArrayKey, Float64.isInteger, Bool.and_eq_true, beq_iff_eq] at hf hg
      simp only [Float64.toInt, hf.1.1, hg.1.1, Nat.cast_one, Int.tdiv_one] at h
      congr 1
      exact Rat.ext h (hf.1.1.trans hg.1.1.symm)
    | _ => simp [isArrayKey, Float64.isInteger] at hg
  | _ => simp [isArrayKey, Float64.isInteger] at hf

theorem RawGet_arrayKey (M : Int) (tb : LTable) (f : Float64) (hf : isArrayKey M f = true) :
    RawGet M tb (.LNumber f) = tb.array.getD (f.toInt - 1).toNat LNil := by
  simp only [RawGet, hf, if_true]
  split_ifs with h
  · rw [getD_eq_nil_of_length_le _ _ h]
  · rfl

theorem RawSet_general_eq (M : Int) (tb : LTable) (k v : LValue)
    (hroute : routesToArray M k = false) (hs : ∀ s : String, k ≠ .LString s) :
    RawSet M tb k v =
      { tb with dict :=
          if v = LNil then mapDelete keyEq tb.dict k else mapSet keyEq tb.dict k v } := by
  cases k with
  | LNumber f =>
    have hf : isArrayKey M f = false := hroute
    simp only [RawSet, hf, Bool.false_eq_true, if_false, RawSetH]
    split_ifs <;> rfl
  | LString s => exact absurd rfl (hs s)
  | _ => simp only [RawSet, RawSetH]; split_ifs <;> rfl

theorem RawSet_string_eq (M : Int) (tb : LTable) (s : String) (v : LValue) :
    RawSet M tb (.LString s) v =
      { tb with strdict :=
          if v = LNil then mapDelete strEq tb.strdict s else mapSet strEq tb.strdict s v } := by
  simp only [RawSet, RawSetString]
  split_ifs <;> rfl

theorem dict_store_other (d : List (LValue × LValue)) (k k2 v : LValue) (hne : k ≠ k2) :
    mapGet keyEq (if v = LNil then mapDelete keyEq d k else mapSet keyEq d k v) k2 =
      mapGet keyEq d k2 := by
  split_ifs
  · exact mapGet_mapDelete_other keyEq (fun _ _ => keyEq_sound) d k k2 hne
  · exact mapGet_mapSet_other keyEq (fun _ _ => keyEq_sound) d k k2 v hne

theorem strdict_store_other (d : List (String × LValue)) (s s2 : String) (v : LValue)
    (hne : s ≠ s2) :
    mapGet strEq (if v = LNil then mapDelete strEq d s else mapSet strEq d s v) s2 =
      mapGet strEq d s2 := by
  split_ifs
  · exact mapGet_mapDelete_other strEq (fun _ _ => strEq_sound) d s s2 hne
  · exact mapGet_mapSet_other strEq (fun _ _ => strEq_sound) d s s2 v hne

/-- A read depends on the three segments only. -/
theorem RawGet_congr (M : Int) (tb tb2 : LTable) (k : LValue)
    (ha : routesToArray M k = true → tb2.array = tb.array)
    (hs : ∀ s : String, k = .LString s →
      mapGet strEq tb2.strdict s = mapGet strEq tb.strdict s)
    (hd : routesToArray M k = false → (∀ s : String, k ≠ .LString s) →
      mapGet keyEq tb2.dict k = mapGet keyEq tb.dict k) :
    RawGet M tb2 k = RawGet M tb k := by
  cases k with
  | LNumber f =>
    by_cases hf : isArrayKey M f = true
    · rw [RawGet_arrayKey M _ f hf, RawGet_arrayKey M _ f hf, ha hf]
    · have hf' : isArrayKey M f = false := by simpa using hf
      simp only [RawGet, hf', Bool.false_eq_true, if_false]
      rw [hd hf' (by simp)]
  | LString s => simp only [RawGet]; rw [hs s rfl]
  | LNil => simp only [RawGet]; rw [hd rfl (by simp)]
  | LBool b => simp only [RawGet]; rw [hd rfl (by simp)]
  | LTableRef a => simp only [RawGet]; rw [hd rfl (by simp)]
  | LFunctionRef a => simp only [RawGet]; rw [hd rfl (by simp)]
  | LOtherRef a => simp only [RawGet]; rw [hd rfl (by simp)]

theorem RawGet_RawSet_other (M : Int) (tb : LTable) (k k2 v : LValue) (hne : k ≠ k2) :
    RawGet M (RawSet M tb k v) k2 = RawGet M tb k2 := by
  by_cases hk : routesToArray M k = true
  · -- the store goes to the array segment
    cases k with
    | LNumber f =>
      have hf : isArrayKey M f = true := hk
      rw [RawSet_arrayKey_eq M tb f v hf]
      cases k2 with
      | LNumber g =>
        by_cases hg : isArrayKey M g = true
        · rw [RawGet_arrayKey M _ g hg, RawGet_arrayKey M _ g hg]
          apply storeAt_get_other
          intro hidx
          have h1 := (isArrayKey_toInt M f hf).1
          have h2 := (isArrayKey_toInt M g hg).1
          exact hne (by rw [isArrayKey_toInt_inj M f g hf hg (by omega)])
        · have hg' : isArrayKey M g = false := by simpa using hg
          simp only [RawGet, hg', Bool.false_eq_true, if_false]
      | _ => rfl
    | _ => simp [routesToArray] at hk
  · have hk' : routesToArray M k = false := by simpa using hk
    by_cases hstr : ∃ s : String, k = .LString s
    · obtain ⟨s, rfl⟩ := hstr
      rw [RawSet_string_eq]
      apply RawGet_congr
      · intro _; rfl
      · intro s2 hs2
        subst hs2
        exact strdict_store_other tb.strdict s s2 v (fun h => hne (by rw [h]))
      · intro _ _; rfl
    · rw [RawSet_general_eq M tb k v hk' (fun s hs => hstr ⟨s, hs⟩)]
      apply RawGet_congr
      · intro _; rfl
      · intro _ _; rfl
      · intro _ _
        exact dict_store_other tb.dict k k2 v hne

/-- C19: for every table, every pair of distinct keys `k` and `k2` and every
value `v` (nil included), `RawGet(k2)` after `RawSet(k, v)` returns what
`RawGet(k2)` returned before, also when the set pads the array segment with nil
slots. -/
theorem C19_RawSet_frame (M : Int) (tb : LTable) (k k2 v : LValue) (hne : k ≠ k2) :
    RawGet M (RawSet M tb k v) k2 = RawGet M tb k2 :=
  RawGet_RawSet_other M tb k k2 v hne

/-- C19, at a concrete input: `RawSet(4, "b")` pads `["a"]` with two nil slots, and
the key 2, inside the padding, still reads nil. -/
theorem C19_RawSet_frame_witness :
    RawGet 67108864
        (RawSet 67108864 { newLTable 0 0 with array := [.LString "a"] } (.LNumber (.ofInt 4))
          (.LString "b")) (.LNumber (.ofInt 2)) =
      RawGet 67108864 { newLTable 0 0 with array := [.LString "a"] } (.LNumber (.ofInt 2)) :=
  C19_RawSet_frame 67108864 { newLTable 0 0 with array := [.LString "a"] }
    (.LNumber (.ofInt 4)) (.LNumber (.ofInt 2)) (.LString "b") (by decide)

/-! ## C13: `Remove` then `Insert` -/

theorem take_append_getD_drop (a : List LValue) (i : Nat) (hi : i < a.length) :
    a.take i ++ a.getD i LNil :: a.drop (i + 1) = a := by
  rw [List.getD_eq_getElem?_getD, List.getElem?_eq_getElem hi, Option.getD_some]
  rw [← List.drop_eq_getElem_cons hi, List.take_append_drop]

theorem Remove_then_Insert (M : Int) (tb : LTable) (p : Int)
    (h1 : 1 ≤ p) (h2 : p ≤ tb.array.length) (hn : (tb.array.length : Int) < M)
    (hp : p ≤ maxInt) :
    ∃ (v : LValue) (tb1 : LTable), Remove tb p = some (v, tb1) ∧
      tb.array[(p - 1).toNat]? = some v ∧
      tb1.array = tb.array.take (p - 1).toNat ++ tb.array.drop p.toNat ∧
      Insert M tb1 p v = tb := by
  have hlo : minInt < p := by unfold minInt; omega
  obtain ⟨-, hlast, hmid, -⟩ := Remove_result tb p hlo hp
  have hi : (p - 1).toNat < tb.array.length := by omega
  have hget : tb.array[(p - 1).toNat]? = some (tb.array.getD (p - 1).toNat LNil) := by
    rw [List.getD_eq_getElem?_getD, List.getElem?_eq_getElem hi, Option.getD_some]
  have hpe : p.toNat = (p - 1).toNat + 1 := by omega
  by_cases hlt : p < tb.array.length
  · refine ⟨_, _, hmid h1 hlt, hget, rfl, ?_⟩
    rw [Insert_inside_eq M _ p _ h1 (by
      simp only [List.length_append, List.length_take, List.length_drop]; omega)]
    simp only
    have e1 : (tb.array.take (p - 1).toNat ++ tb.array.drop p.toNat).take (p - 1).toNat =
        tb.array.take (p - 1).toNat := by
      rw [List.take_left' (by simp only [List.length_take]; omega)]
    have e2 : (tb.array.take (p - 1).toNat ++ tb.array.drop p.toNat).drop (p - 1).toNat =
        tb.array.drop p.toNat := by
      rw [List.drop_left' (by simp only [List.length_take]; omega)]
    rw [e1, e2, hpe, take_append_getD_drop tb.array _ hi]
  · have hpn : p = tb.array.length := by omega
    have hpos : 0 < tb.array.length := by omega
    have e0 : tb.array.length - 1 = (p - 1).toNat := by omega
    refine ⟨_, _, hlast hpos (Or.inl hpn), ?_, ?_, ?_⟩
    · rw [e0]; exact hget
    · simp only
      rw [e0, List.drop_eq_nil_of_le (by omega), List.append_nil]
    · simp only [LTable.Insert, List.length_take]
      rw [if_pos (by omega)]
      simp only [RawSetInt, List.length_take]
      rw [if_neg (by omega), if_pos (by omega)]
      have e3 : tb.array.take (tb.array.length - 1) ++ [tb.array.getD (tb.array.length - 1) LNil]
          = tb.array := by
        have := take_append_getD_drop tb.array (tb.array.length - 1) (by omega)
        rw [List.drop_eq_nil_of_le (by omega)] at this
        exact this
      simp only [e3]

/-- C13: for every table whose array segment has length `n` below the maximum
array index and every position `p` with `1 ≤ p ≤ n`, `Remove(p)` returns the
element of slot `p`, leaves the array segment without that slot, and `Insert(p, ·)`
of the value returned brings back the original array segment (indeed the
original table). -/
theorem C13_Remove_then_Insert (M : Int) (tb : LTable) (p : Int)
    (h1 : 1 ≤ p) (h2 : p ≤ tb.array.length) (hn : (tb.array.length : Int) < M)
    (hp : p ≤ maxInt) :
    ∃ (v : LValue) (tb1 : LTable), Remove tb p = some (v, tb1) ∧
      tb.array[(p - 1).toNat]? = some v ∧
      tb1.array = tb.array.take (p - 1).toNat ++ tb.array.drop p.toNat ∧
      (Insert M tb1 p v).array = tb.array ∧
      Insert M tb1 p v = tb := by
  obtain ⟨v, tb1, hr, hv, ha, hi⟩ := Remove_then_Insert M tb p h1 h2 hn hp
  exact ⟨v, tb1, hr, hv, ha, by rw [hi], hi⟩

/-- C13, at a concrete input: on `[a, b, c]`, `Remove(2)` returns `b` and leaves
`[a, c]`, and putting `b` back at position 2 restores `[a, b, c]`. -/
theorem C13_Remove_then_Insert_witness :
    Remove { newLTable 0 0 with array := [.LString "a", .LString "b", .LString "c"] } 2 =
        some (.LString "b", { newLTable 0 0 with array := [.LString "a", .LString "c"] }) ∧
      ∃ (v : LValue) (tb1 : LTable),
        Remove { newLTable 0 0 with array := [.LString "a", .LString "b", .LString "c"] } 2 =
          some (v, tb1) ∧
        (Insert 67108864 tb1 2 v).array = [.LString "a", .LString "b", .LString "c"] := by
  refine ⟨by decide, ?_⟩
  obtain ⟨v, tb1, hr, -, -, ha, -⟩ := C13_Remove_then_Insert 67108864
    { newLTable 0 0 with array := [.LString "a", .LString "b", .LString "c"] } 2
    (by decide) (by decide) (by decide) (by decide)
  exact ⟨v, tb1, hr, ha⟩

/-! ## Invariants of the tables the operations build -/

theorem mem_mapSet_val {κ α : Type} (eq : κ → κ → Bool) (m : List (κ × α)) (k : κ) (v : α)
    (e : κ × α) (h : e ∈ mapSet eq m k v) : e.2 = v ∨ e ∈ m := by
  induction m with
  | nil =>
    simp only [mapSet, List.mem_singleton] at h
    exact Or.inl (by rw [h])
  | cons e0 m ih =>
    obtain ⟨k0, v0⟩ := e0
    simp only [mapSet] at h
    split_ifs at h with hk
    · rcases List.mem_cons.mp h with h | h
      · exact Or.inl (by rw [h])
      · exact Or.inr (by simp [h])
    · rcases List.mem_cons.mp h with h | h
      · exact Or.inr (by simp [h])
      · rcases ih h with h | h
        · exact Or.inl h
        · exact Or.inr (by simp [h])

theorem noNilValue_store {κ : Type} (eq : κ → κ → Bool) (m : List (κ × LValue)) (k : κ)
    (v : LValue) (hm : noNilValue m) :
    noNilValue (if v = LNil then mapDelete eq m k else mapSet eq m k v) := by
  intro e he
  split_ifs at he with hv
  · exact hm e (mem_mapDelete eq m k e he).1
  · rcases mem_mapSet_val eq m k v e he with h | h
    · rw [h]; exact hv
    · exact hm e h

theorem RawSetString_eq (tb : LTable) (s : String) (v : LValue) :
    RawSetString tb s v =
      { tb with strdict :=
          if v = LNil then mapDelete strEq tb.strdict s else mapSet strEq tb.strdict s v } := by
  simp only [RawSetString]
  split_ifs <;> rfl

theorem RawSetH_eq (tb : LTable) (k v : LValue) :
    RawSetH tb k v =
      match k with
      | .LString s =>
        { tb with strdict :=
            if v = LNil then mapDelete strEq tb.strdict s else mapSet strEq tb.strdict s v }
      | k =>
        { tb with dict :=
            if v = LNil then mapDelete keyEq tb.dict k else mapSet keyEq tb.dict k v } := by
  cases k <;> simp only [RawSetH, RawSetString_eq] <;> split_ifs <;> rfl

/-- What the three segments of a table may look like after one of the stores:
the array segment is free, and each hash segment is either untouched or the
result of one store. -/
theorem RawSetH_segments (tb : LTable) (k v : LValue) :
    (RawSetH tb k v).array = tb.array ∧
      ((RawSetH tb k v).strdict = tb.strdict ∨
        ∃ s : String, (RawSetH tb k v).strdict =
          if v = LNil then mapDelete strEq tb.strdict s else mapSet strEq tb.strdict s v) ∧
      ((RawSetH tb k v).dict = tb.dict ∨
        ((∀ s : String, k ≠ .LString s) ∧ (RawSetH tb k v).dict =
          if v = LNil then mapDelete keyEq tb.dict k else mapSet keyEq tb.dict k v)) := by
  rw [RawSetH_eq]
  cases k with
  | LString s => exact ⟨rfl, Or.inr ⟨s, rfl⟩, Or.inl rfl⟩
  | _ => exact ⟨rfl, Or.inl rfl, Or.inr ⟨by simp, rfl⟩⟩

theorem RawSet_segments (M : Int) (tb : LTable) (k v : LValue) :
    ((RawSet M tb k v).strdict = tb.strdict ∨
        ∃ s : String, (RawSet M tb k v).strdict =
          if v = LNil then mapDelete strEq tb.strdict s else mapSet strEq tb.strdict s v) ∧
      ((RawSet M tb k v).dict = tb.dict ∨
        ((∀ s : String, k ≠ .LString s) ∧ routesToArray M k = false ∧
          (RawSet M tb k v).dict =
            if v = LNil then mapDelete keyEq tb.dict k else mapSet keyEq tb.dict k v)) := by
  by_cases hk : routesToArray M k = true
  · cases k with
    | LNumber f =>
      rw [RawSet_arrayKey_eq M tb f v hk]
      exact ⟨Or.inl rfl, Or.inl rfl⟩
    | _ => simp [routesToArray] at hk
  · have hk' : routesToArray M k = false := by simpa using hk
    by_cases hstr : ∃ s : String, k = .LString s
    · obtain ⟨s, rfl⟩ := hstr
      rw [RawSet_string_eq]
      exact ⟨Or.inr ⟨s, rfl⟩, Or.inl rfl⟩
    · rw [RawSet_general_eq M tb k v hk' (fun s hs => hstr ⟨s, hs⟩)]
      exact ⟨Or.inl rfl, Or.inr ⟨fun s hs => hstr ⟨s, hs⟩, hk', rfl⟩⟩

theorem RawSetInt_segments (M : Int) (tb : LTable) (key : Int) (v : LValue) :
    (RawSetInt M tb key v).strdict = tb.strdict ∧
      ((RawSetInt M tb key v).dict = tb.dict ∨
        ((key < 1 ∨ key ≥ M) ∧
          (RawSetInt M tb key v).dict =
            if v = LNil then mapDelete keyEq tb.dict (.LNumber (.ofInt key))
            else mapSet keyEq tb.dict (.LNumber (.ofInt key)) v)) := by
  by_cases h1 : key < 1 ∨ key ≥ M
  · have : RawSetInt M tb key v = RawSetH tb (.LNumber (.ofInt key)) v := by
      simp only [RawSetInt]
      rw [if_pos h1]
    rw [this, RawSetH_eq]
    exact ⟨rfl, Or.inr ⟨h1, rfl⟩⟩
  · have : (RawSetInt M tb key v).strdict = tb.strdict ∧
        (RawSetInt M tb key v).dict = tb.dict := by
      simp only [RawSetInt]
      rw [if_neg h1]
      split_ifs <;> exact ⟨rfl, rfl⟩
    exact ⟨this.1, Or.inl this.2⟩

theorem Insert_cases (M : Int) (tb : LTable) (i : Int) (v : LValue) :
    Insert M tb i v = RawSetInt M tb i v ∨
      Insert M tb i v = RawSet M tb (.LNumber (.ofInt i)) v ∨
      ((Insert M tb i v).strdict = tb.strdict ∧ (Insert M tb i v).dict = tb.dict) := by
  simp only [LTable.Insert]
  split_ifs
  · exact Or.inl rfl
  · exact Or.inr (Or.inl rfl)
  · exact Or.inr (Or.inr ⟨rfl, rfl⟩)

theorem noNil_RawSet (M : Int) (tb : LTable) (k v : LValue)
    (h : noNilValue tb.dict ∧ noNilValue tb.strdict) :
    noNilValue (RawSet M tb k v).dict ∧ noNilValue (RawSet M tb k v).strdict := by
  obtain ⟨hs, hd⟩ := RawSet_segments M tb k v
  constructor
  · rcases hd with hd | ⟨-, -, hd⟩ <;> rw [hd]
    · exact h.1
    · exact noNilValue_store keyEq _ _ _ h.1
  · rcases hs with hs | ⟨s, hs⟩ <;> rw [hs]
    · exact h.2
    · exact noNilValue_store strEq _ _ _ h.2

theorem noNil_RawSetInt (M : Int) (tb : LTable) (k : Int) (v : LValue)
    (h : noNilValue tb.dict ∧ noNilValue tb.strdict) :
    noNilValue (RawSetInt M tb k v).dict ∧ noNilValue (RawSetInt M tb k v).strdict := by
  obtain ⟨hs, hd⟩ := RawSetInt_segments M tb k v
  constructor
  · rcases hd with hd | ⟨-, hd⟩ <;> rw [hd]
    · exact h.1
    · exact noNilValue_store keyEq _ _ _ h.1
  · rw [hs]; exact h.2

theorem noNil_RawSetH (tb : LTable) (k v : LValue)
    (h : noNilValue tb.dict ∧ noNilValue tb.strdict) :
    noNilValue (RawSetH tb k v).dict ∧ noNilValue (RawSetH tb k v).strdict := by
  obtain ⟨-, hs, hd⟩ := RawSetH_segments tb k v
  constructor
  · rcases hd with hd | ⟨-, hd⟩ <;> rw [hd]
    · exact h.1
    · exact noNilValue_store keyEq _ _ _ h.1
  · rcases hs with hs | ⟨s, hs⟩ <;> rw [hs]
    · exact h.2
    · exact noNilValue_store strEq _ _ _ h.2

theorem noNil_Insert (M : Int) (tb : LTable) (i : Int) (v : LValue)
    (h : noNilValue tb.dict ∧ noNilValue tb.strdict) :
    noNilValue (Insert M tb i v).dict ∧ noNilValue (Insert M tb i v).strdict := by
  rcases Insert_cases M tb i v with hI | hI | ⟨hs, hd⟩
  · rw [hI]; exact noNil_RawSetInt M tb i v h
  · rw [hI]; exact noNil_RawSet M tb _ v h
  · rw [hs, hd]; exact h

/-- The hash segments of a table built by the operations hold no nil value. -/
theorem Reachable_noNil (M : Int) (tb : LTable) (h : Reachable M tb) :
    noNilValue tb.dict ∧ noNilValue tb.strdict := by
  induction h with
  | new acap hcap =>
    exact ⟨fun e he => by simp [newLTable] at he, fun e he => by simp [newLTable] at he⟩
  | rawSet k v _ ih => exact noNil_RawSet M _ k v ih
  | rawSetInt k v _ ih => exact noNil_RawSetInt M _ k v ih
  | rawSetString k v _ ih =>
    rw [RawSetString_eq]
    exact ⟨ih.1, noNilValue_store strEq _ _ _ ih.2⟩
  | rawSetH k v _ ih => exact noNil_RawSetH _ k v ih
  | append v _ ih => exact ih
  | insert i v _ ih => exact noNil_Insert M _ i v ih
  | remove pos v _ hrem ih =>
    obtain ⟨hd, hs, -⟩ := Remove_segments _ _ pos v hrem
    rw [hd, hs]; exact ih
  | next key r _ hnext ih =>
    obtain ⟨-, hd, hs, -⟩ := (Next_result _ key r _ hnext).1
    rw [hd, hs]; exact ih
  | setMetatable mt _ ih => exact ih

theorem SetReachable_Reachable (M : Int) (tb : LTable) (h : SetReachable M tb) :
    Reachable M tb := by
  induction h with
  | new acap hcap => exact Reachable.new acap hcap
  | rawSet k v _ ih => exact Reachable.rawSet k v ih
  | rawSetInt k v _ ih => exact Reachable.rawSetInt k v ih
  | rawSetString k v _ ih => exact Reachable.rawSetString k v ih
  | append v _ ih => exact Reachable.append v ih
  | insert i v _ ih => exact Reachable.insert i v ih
  | remove pos v _ hrem ih => exact Reachable.remove pos v ih hrem
  | next key r _ hnext ih => exact Reachable.next key r ih hnext
  | setMetatable mt _ ih => exact Reachable.setMetatable mt ih

theorem dictKeys_store (P : LValue → Prop) (m : List (LValue × LValue)) (k v : LValue)
    (hm : ∀ e ∈ m, P e.1) (hk : P k) :
    ∀ e ∈ (if v = LNil then mapDelete keyEq m k else mapSet keyEq m k v), P e.1 := by
  intro e he
  split_ifs at he
  · exact hm e (mem_mapDelete keyEq m k e he).1
  · rcases mem_mapSet_key keyEq m k v e he with h | ⟨e', he', hk'⟩
    · rw [h]; exact hk
    · rw [← hk']; exact hm e' he'

theorem dictRoute_RawSet (M : Int) (tb : LTable) (k v : LValue)
    (h : ∀ e ∈ tb.dict, routesToArray M e.1 = false) :
    ∀ e ∈ (RawSet M tb k v).dict, routesToArray M e.1 = false := by
  rcases (RawSet_segments M tb k v).2 with hd | ⟨-, hk, hd⟩ <;> rw [hd]
  · exact h
  · exact dictKeys_store (fun k => routesToArray M k = false) _ _ _ h hk

theorem dictRoute_RawSetInt (M : Int) (tb : LTable) (k : Int) (v : LValue)
    (h : ∀ e ∈ tb.dict, routesToArray M e.1 = false) :
    ∀ e ∈ (RawSetInt M tb k v).dict, routesToArray M e.1 = false := by
  rcases (RawSetInt_segments M tb k v).2 with hd | ⟨hk, hd⟩ <;> rw [hd]
  · exact h
  · apply dictKeys_store (fun k => routesToArray M k = false) _ _ _ h
    simp only [routesToArray, isArrayKey_ofInt]
    rcases hk with hk | hk
    · simp; intro h1; omega
    · simp; intro _; omega

/-- The general segment of a table built without a direct `RawSetH` holds no
array-eligible number. -/
theorem SetReachable_dictRoute (M : Int) (tb : LTable) (h : SetReachable M tb) :
    ∀ e ∈ tb.dict, routesToArray M e.1 = false := by
  induction h with
  | new acap hcap => intro e he; simp [newLTable] at he
  | rawSet k v _ ih => exact dictRoute_RawSet M _ k v ih
  | rawSetInt k v _ ih => exact dictRoute_RawSetInt M _ k v ih
  | rawSetString k v _ ih => rw [RawSetString_dict]; exact ih
  | append v _ ih => exact ih
  | insert i v _ ih =>
    rcases Insert_cases M _ i v with hI | hI | ⟨-, hd⟩
    · rw [hI]; exact dictRoute_RawSetInt M _ i v ih
    · rw [hI]; exact dictRoute_RawSet M _ _ v ih
    · rw [hd]; exact ih
  | remove pos v _ hrem ih => rw [(Remove_segments _ _ pos v hrem).1]; exact ih
  | next key r _ hnext ih => rw [(Next_result _ key r _ hnext).1.2.1]; exact ih
  | setMetatable mt _ ih => exact ih

theorem SetReachable_replicate (M : Int) (n : Nat) (v : LValue) :
    SetReachable M { newLTable 0 0 with array := List.replicate n v } := by
  induction n with
  | zero => exact SetReachable.new 0 0
  | succ n ih =>
    have := SetReachable.append v ih
    simpa [LTable.Append, List.replicate_succ'] using this

/-! ## C11: one segment for each key -/

/-- C11 (as stated, refuted): `Append` makes no threshold check.  The table built
by 67108864 appends of `true` has an array slot at position 67108864, which is
not array-eligible (the routing rule sends the key 67108864 to the general
segment); and after `RawSet(67108864, false)` on that table the key 67108864 is
held by the array segment and by the general segment at once. -/
theorem C11_counterexample_Append :
    (SetReachable 67108864
        { newLTable 0 0 with array := List.replicate 67108864 (.LBool true) } ∧
      heldByArray { newLTable 0 0 with array := List.replicate 67108864 (.LBool true) }
        (.LNumber (.ofInt 67108864)) ∧
      routesToArray 67108864 (.LNumber (.ofInt 67108864)) = false) ∧
    (SetReachable 67108864
        (RawSet 67108864 { newLTable 0 0 with array := List.replicate 67108864 (.LBool true) }
          (.LNumber (.ofInt 67108864)) (.LBool false)) ∧
      heldByArray
        (RawSet 67108864 { newLTable 0 0 with array := List.replicate 67108864 (.LBool true) }
          (.LNumber (.ofInt 67108864)) (.LBool false)) (.LNumber (.ofInt 67108864)) ∧
      heldByDict
        (RawSet 67108864 { newLTable 0 0 with array := List.replicate 67108864 (.LBool true) }
          (.LNumber (.ofInt 67108864)) (.LBool false)) (.LNumber (.ofInt 67108864))) := by
  have hroute : routesToArray 67108864 (.LNumber (.ofInt 67108864)) = false := by
    rw [routesToArray, isArrayKey_ofInt]; decide
  have hset := RawSet_general_eq 67108864
    { newLTable 0 0 with array := List.replicate 67108864 (.LBool true) }
    (.LNumber (.ofInt 67108864)) (.LBool false) hroute (fun s hs => by cases hs)
  have hlen : 67108863 < (List.replicate 67108864 (LValue.LBool true)).length := by
    rw [List.length_replicate]; decide
  refine ⟨⟨SetReachable_replicate _ _ _, ⟨67108863, hlen, rfl⟩, hroute⟩,
    SetReachable.rawSet _ _ (SetReachable_replicate _ _ _), ?_, ?_⟩
  · rw [hset]
    exact ⟨67108863, hlen, rfl⟩
  · rw [hset]
    refine ⟨.LBool false, ?_⟩
    show (LValue.LNumber (.ofInt 67108864), LValue.LBool false) ∈
      (if LValue.LBool false = LNil then mapDelete keyEq [] (LValue.LNumber (.ofInt 67108864))
        else mapSet keyEq [] (LValue.LNumber (.ofInt 67108864)) (LValue.LBool false))
    rw [if_neg (by decide)]
    exact List.mem_singleton.mpr rfl

/-- C11 (amended): in every table reachable from the empty table by set (`RawSet`,
`RawSetInt`, `RawSetString`), `Append`, `Insert` and `Remove`, the general segment
holds no string key and no array-eligible number; and when the array segment is
shorter than the maximum array index, every array slot is at an array-eligible
position and no key is held by two segments: a key held by the array segment is
array-eligible, a key held by the string segment is a string, and a key held by
the general segment is neither. -/
theorem C11_one_segment (M : Int) (tb : LTable) (h : SetReachable M tb) :
    noStringKey tb.dict ∧
      (∀ e ∈ tb.dict, routesToArray M e.1 = false) ∧
      ((tb.array.length : Int) < M →
        (∀ k : LValue, heldByArray tb k → routesToArray M k = true) ∧
        (∀ k : LValue, heldByStrdict tb k → ∃ s : String, k = .LString s) ∧
        (∀ k : LValue, heldByDict tb k →
          routesToArray M k = false ∧ ∀ s : String, k ≠ .LString s) ∧
        (∀ k : LValue, ¬ (heldByArray tb k ∧ heldByStrdict tb k) ∧
          ¬ (heldByArray tb k ∧ heldByDict tb k) ∧
          ¬ (heldByStrdict tb k ∧ heldByDict tb k))) := by
  have hns := Reachable_noStringKey M tb (SetReachable_Reachable M tb h)
  have hroute := SetReachable_dictRoute M tb h
  refine ⟨hns, hroute, fun hlen => ?_⟩
  have harr : ∀ k : LValue, heldByArray tb k → routesToArray M k = true := by
    rintro k ⟨j, hj, rfl⟩
    exact arrayPosition_routesToArray M j (by omega)
  have hdict : ∀ k : LValue, heldByDict tb k →
      routesToArray M k = false ∧ ∀ s : String, k ≠ .LString s := by
    rintro k ⟨v, hv⟩
    exact ⟨hroute _ hv, fun s => hns _ hv s⟩
  refine ⟨harr, ?_, hdict, fun k => ⟨?_, ?_, ?_⟩⟩
  · rintro k ⟨s, v, rfl, -⟩
    exact ⟨s, rfl⟩
  · rintro ⟨⟨j, -, hk⟩, ⟨s, v, hs, -⟩⟩
    rw [hk] at hs
    cases hs
  · rintro ⟨ha, hd⟩
    have h1 := harr k ha
    rw [(hdict k hd).1] at h1
    cases h1
  · rintro ⟨⟨s, v, hs, -⟩, hd⟩
    exact (hdict k hd).2 s hs

/-- C11, at a concrete input: the table built by `RawSet(0, true)`. -/
theorem C11_one_segment_witness :
    noStringKey (RawSet 67108864 (newLTable 0 0) (.LNumber (.ofInt 0)) (.LBool true)).dict :=
  (C11_one_segment 67108864 (RawSet 67108864 (newLTable 0 0) (.LNumber (.ofInt 0)) (.LBool true))
    (SetReachable.rawSet _ _ (SetReachable.new 0 0))).1

/-! ## C17: no nil entry in the hash segments -/

theorem keyEq_nan_right (a : LValue) : keyEq a (.LNumber .nan) = false := by
  cases a with
  | LNumber f => cases f <;> rfl
  | _ => rfl

theorem mapDelete_nan (m : List (LValue × LValue)) : mapDelete keyEq m (.LNumber .nan) = m := by
  simp [mapDelete, keyEq_nan_right]

/-- C17 (as stated, refuted): the table built by `RawSet(NaN, true)` holds the
entry `NaN ↦ true` in its general segment, and storing nil under the key
not-a-number with `RawSetH` leaves that entry where it is: `delete` finds no key
equal to not-a-number, so the key is not removed. -/
theorem C17_counterexample_nan :
    Reachable 67108864 (RawSet 67108864 (newLTable 0 0) (.LNumber .nan) (.LBool true)) ∧
      (LValue.LNumber .nan, LValue.LBool true) ∈
        (RawSetH (RawSet 67108864 (newLTable 0 0) (.LNumber .nan) (.LBool true))
          (.LNumber .nan) LNil).dict :=
  ⟨Reachable.rawSet _ _ (Reachable.new 0 0), by decide⟩

/-- C17 (amended): in every table built from the empty table by `RawSet`,
`RawSetInt`, `RawSetString`, `RawSetH`, `Append`, `Insert` and `Remove`, neither
the string segment nor the general segment maps a key to nil; storing nil under a
string or general key yields the table obtained by deleting that key from its
segment, in which a lookup of the key finds no entry and no nil is held; and it
removes the key (no entry under it is left), unless the key is not-a-number and
the general segment holds a not-a-number key, in which case the table is left as
it was. -/
theorem C17_no_nil_entries (M : Int) (tb : LTable) (h : Reachable M tb) :
    noNilValue tb.dict ∧ noNilValue tb.strdict ∧
      (∀ s : String,
        RawSetString tb s LNil = { tb with strdict := mapDelete strEq tb.strdict s } ∧
        RawSetH tb (.LString s) LNil = { tb with strdict := mapDelete strEq tb.strdict s } ∧
        RawSet M tb (.LString s) LNil = { tb with strdict := mapDelete strEq tb.strdict s } ∧
        (∀ e ∈ (RawSetH tb (.LString s) LNil).strdict, e.1 ≠ s)) ∧
      (∀ k : LValue, (∀ s : String, k ≠ .LString s) →
        RawSetH tb k LNil = { tb with dict := mapDelete keyEq tb.dict k } ∧
        (routesToArray M k = false →
          RawSet M tb k LNil = { tb with dict := mapDelete keyEq tb.dict k }) ∧
        ((k = .LNumber .nan → ∀ e ∈ tb.dict, e.1 ≠ .LNumber .nan) →
          ∀ e ∈ (RawSetH tb k LNil).dict, e.1 ≠ k)) ∧
      RawSetH tb (.LNumber .nan) LNil = tb ∧
      (∀ k : LValue, hashEntry (RawSetH tb k LNil) k = none) ∧
      (∀ k : LValue, noNilValue (RawSetH tb k LNil).dict ∧
        noNilValue (RawSetH tb k LNil).strdict) := by
  obtain ⟨hd, hs⟩ := Reachable_noNil M tb h
  have hgen : ∀ k : LValue, (∀ s : String, k ≠ .LString s) →
      RawSetH tb k LNil = { tb with dict := mapDelete keyEq tb.dict k } := by
    intro k hk
    rw [RawSetH_eq]
    cases k <;> first | exact absurd rfl (hk _) | simp
  refine ⟨hd, hs, ?_, ?_, ?_, ?_, ?_⟩
  · intro s
    have hstr : RawSetH tb (.LString s) LNil =
        { tb with strdict := mapDelete strEq tb.strdict s } := by simp [RawSetH_eq]
    refine ⟨by simp [RawSetString_eq], hstr, by simp [RawSet_string_eq], ?_⟩
    rw [hstr]
    intro e he heq
    have := (mem_mapDelete strEq _ _ _ he).2
    simp [strEq, heq] at this
  · intro k hk
    refine ⟨hgen k hk, ?_, ?_⟩
    · intro hroute
      rw [RawSet_general_eq M tb k LNil hroute hk]
      simp
    · intro hnan
      rw [hgen k hk]
      intro e he heq
      have hdel := mem_mapDelete keyEq _ _ _ he
      by_cases hk2 : k = .LNumber .nan
      · exact hnan hk2 e hdel.1 (heq.trans hk2)
      · have h2 := hdel.2
        rw [heq, keyEq_self hk2] at h2
        cases h2
  · rw [hgen _ (by simp), mapDelete_nan]
  · intro k
    rw [RawSetH_eq]
    cases k <;> simp [hashEntry, mapGet_mapDelete_self]
  · intro k
    exact noNil_RawSetH tb k LNil ⟨hd, hs⟩

/-- C17, at a concrete input: the table built by `RawSet("x", 1)`. -/
theorem C17_no_nil_entries_witness :
    noNilValue
      (RawSet 67108864 (newLTable 0 0) (.LString "x") (.LNumber (.ofInt 1))).strdict :=
  (C17_no_nil_entries 67108864
    (RawSet 67108864 (newLTable 0 0) (.LString "x") (.LNumber (.ofInt 1)))
    (Reachable.rawSet _ _ (Reachable.new 0 0))).2.1

/-! ## C15: `ForEach` -/

theorem ForEach_array_fold {σ : Type} (cb : σ → LValue → LValue → σ) (a : List LValue)
    (i : Nat) (s : σ) :
    ForEach.array cb a i s = List.foldl (fun s p => cb s p.1 p.2) s (arrayPairs a i) := by
  induction a generalizing i s with
  | nil => rfl
  | cons v rest ih =>
    simp only [ForEach.array, arrayPairs, ih, List.foldl_append]
    split_ifs <;> rfl

theorem ForEach_entries_fold {σ κ : Type} (cb : σ → LValue → LValue → σ) (f : κ → LValue)
    (m : List (κ × LValue)) (s : σ) :
    ForEach.entries cb f m s = List.foldl (fun s p => cb s p.1 p.2) s (entryPairs f m) := by
  induction m generalizing s with
  | nil => rfl
  | cons e rest ih =>
    obtain ⟨k, v⟩ := e
    simp only [ForEach.entries, entryPairs, ih, List.foldl_append]
    split_ifs <;> rfl

theorem entryPairs_of_noNil {κ : Type} (f : κ → LValue) (m : List (κ × LValue))
    (h : noNilValue m) : entryPairs f m = m.map (fun e => (f e.1, e.2)) := by
  induction m with
  | nil => rfl
  | cons e rest ih =>
    obtain ⟨k, v⟩ := e
    have hv : v ≠ LNil := h (k, v) (by simp)
    simp only [entryPairs, hv, ne_eq, not_false_eq_true, if_true, List.map_cons,
      List.singleton_append]
    rw [ih (fun e he => h e (by simp [he]))]

theorem arrayPairs_eq_enumFrom (a : List LValue) (i : Nat) :
    arrayPairs a i =
      ((a.enumFrom i).filter (fun iv => decide (iv.2 ≠ LNil))).map
        (fun iv => (LValue.LNumber (.ofInt ((iv.1 : Nat) + 1)), iv.2)) := by
  induction a generalizing i with
  | nil => rfl
  | cons v rest ih =>
    simp only [arrayPairs, List.enumFrom_cons, List.filter_cons, ih]
    by_cases hv : v = LNil <;> simp [hv]

/-- C15: for every table built by the operations, `ForEach` hands to its callback,
one call after the other, first each array slot `i` (1-based) that holds a non-nil
value, in increasing index order, as `(LNumber(i), value)`, then each entry of the
string segment once, then each entry of the general segment once, and nothing
else; nil array slots are skipped.  The callback's state is threaded through
these calls, and the table is only read. -/
theorem C15_ForEach_visits (M : Int) (tb : LTable) (h : Reachable M tb) :
    (∀ (σ : Type) (cb : σ → LValue → LValue → σ) (init : σ),
        ForEach tb cb init = List.foldl (fun s p => cb s p.1 p.2) init (ForEach.calls tb)) ∧
      ForEach.calls tb =
        ((tb.array.enum.filter (fun iv => decide (iv.2 ≠ LNil))).map
            (fun iv => (LValue.LNumber (.ofInt ((iv.1 : Nat) + 1)), iv.2))) ++
          tb.strdict.map (fun e => (LValue.LString e.1, e.2)) ++ tb.dict := by
  obtain ⟨hd, hs⟩ := Reachable_noNil M tb h
  have hcalls : ForEach.calls tb =
      ((tb.array.enum.filter (fun iv => decide (iv.2 ≠ LNil))).map
            (fun iv => (LValue.LNumber (.ofInt ((iv.1 : Nat) + 1)), iv.2))) ++
          tb.strdict.map (fun e => (LValue.LString e.1, e.2)) ++ tb.dict := by
    rw [ForEach_calls_eq, arrayPairs_eq_enumFrom, entryPairs_of_noNil _ _ hs,
      entryPairs_of_noNil _ _ hd, List.append_assoc]
    simp [List.enum]
  refine ⟨?_, hcalls⟩
  intro σ cb init
  rw [ForEach_calls_eq]
  simp only [ForEach, ForEach_array_fold, ForEach_entries_fold, List.foldl_append]

/-- C15, at a concrete input: the table `{a = 1, b = 2, c = 3}`. -/
theorem C15_ForEach_visits_witness :
    ForEach.calls abcTable =
      [(.LString "a", .LNumber (.ofInt 1)), (.LString "b", .LNumber (.ofInt 2)),
        (.LString "c", .LNumber (.ofInt 3))] :=
  (C15_ForEach_visits 67108864 abcTable
    (Reachable.rawSet _ _ (Reachable.rawSet _ _ (Reachable.rawSet _ _ (Reachable.new 0 0))))).2.trans
    (by decide)

/-! ## C14: `Next` after a deletion -/

/-- C14 (the code at the failing input): on the table `{a = 1, b = 2, c = 3}`, whose
snapshot is `a, b, c`, a traversal returns `a` first.  If `a` is then deleted,
`Next(a)` returns `b` and `Next(b)` returns `(nil, nil)` although `c`, at a later
snapshot position, still holds 3; and if instead `b` is deleted, `Next(a)` returns
`(nil, nil)` at once, again with `c` still holding 3.  The loop bound is the
current number of entries, not the length of the snapshot. -/
theorem C14_Next_misses_live_key :
    (Next abcTable LNil).map (fun r => r.1) = some (.LString "a", .LNumber (.ofInt 1)) ∧
    ((Next abcTable LNil).bind fun r1 =>
        Next (RawSet 67108864 r1.2 (.LString "a") LNil) (.LString "a")).map (fun r => r.1) =
      some (.LString "b", .LNumber (.ofInt 2)) ∧
    (((Next abcTable LNil).bind fun r1 =>
        Next (RawSet 67108864 r1.2 (.LString "a") LNil) (.LString "a")).bind fun r2 =>
        Next r2.2 (.LString "b")).map
          (fun r3 => (r3.1, RawGet 67108864 r3.2 (.LString "c"))) =
      some ((LNil, LNil), .LNumber (.ofInt 3)) ∧
    ((Next abcTable LNil).bind fun r1 =>
        Next (RawSet 67108864 r1.2 (.LString "b") LNil) (.LString "a")).map
          (fun r => (r.1, RawGet 67108864 r.2 (.LString "c"))) =
      some ((LNil, LNil), .LNumber (.ofInt 3)) := by
  decide

/-! ## C20: `RawGetInt` -/

/-- On an array-eligible integer the fast path and `RawGet` read the same slot. -/
theorem RawGetInt_eq_RawGet (M : Int) (tb : LTable) (k : Int)
    (h1 : 1 ≤ k) (h2 : k < M) (h3 : k ≤ maxInt) :
    RawGetInt tb k = RawGet M tb (.LNumber (.ofInt k)) := by
  have hf : isArrayKey M (.ofInt k) = true := by
    rw [isArrayKey_ofInt]
    simp only [Bool.and_eq_true, decide_eq_true_eq]
    exact ⟨h1, h2⟩
  have hw : wrapInt (k - 1) = k - 1 :=
    wrapInt_of_inRange _ (by unfold minInt; omega) (by omega)
  rw [RawGet_arrayKey M tb _ hf, Float64.toInt_ofInt]
  simp only [RawGetInt, hw]
  split_ifs with h
  · rw [getD_eq_nil_of_length_le _ _ (by omega)]
  · rfl

/-- C20 (the code at the failing input): after `RawSetInt(0, true)` on the empty
table, `RawGetInt(0)` returns nil while `RawGet(LNumber(0))` returns `true`; the
same happens at the key 67108864, the maximum array index.  `RawSetInt` sends
these keys to the general segment, which `RawGetInt` never reads. -/
theorem C20_RawGetInt_ignores_dict :
    (RawGetInt (RawSetInt 67108864 (newLTable 0 0) 0 (.LBool true)) 0 = LNil ∧
      RawGet 67108864 (RawSetInt 67108864 (newLTable 0 0) 0 (.LBool true))
        (.LNumber (.ofInt 0)) = .LBool true) ∧
    (RawGetInt (RawSetInt 67108864 (newLTable 0 0) 67108864 (.LBool true)) 67108864 = LNil ∧
      RawGet 67108864 (RawSetInt 67108864 (newLTable 0 0) 67108864 (.LBool true))
        (.LNumber (.ofInt 67108864)) = .LBool true) := by
  decide

end GopherLua
